import Mathlib

/-!
A verification development for a small Python implementation of the board
game Stonehenge (files `board.py`, `stonehenge.py`, `strategy.py`).

The Python data model uses mutable objects: `BoardNode`s are shared between
the board's cell registry and its ley-lines, and marking a cell is observed
by every ley-line containing it.  The shallow embedding below gives every
cell a numeric id and keeps the single authoritative value heap
(`Board.vals`, a list indexed by id) inside the board, so that sharing is
by id rather than by object reference.  Ids are assigned in the order
`name_layers` visits the cells (layer by layer, left to right); no Python
behaviour depends on object allocation order, so this choice is sound.

Python exceptions are modelled with `Option`/`Except`: a `none`/`.error`
result is a raised exception.  `Except Board Board` is used for
`occupy_node` so that the error case can carry the state of the board at
the moment the exception is raised (the method mutates `moves_history`
before the lookup that can fail).  Unbounded Python recursion and `while`
loops are modelled with an explicit fuel argument; theorems about concrete
runs supply sufficient fuel.
-/

/-- The two players, Python strings `p1` / `p2`. -/
inductive Player where
  | p1 : Player
  | p2 : Player
deriving DecidableEq, Repr

/-- The `value` attribute of a `BoardNode`: `Union[int, str]` in Python.
A node starts as the string `^`, is renamed to its label by
`name_layers`, and becomes the int `1` or `2` when occupied. -/
inductive CellVal where
  | str : String → CellVal
  | int : Nat → CellVal
deriving DecidableEq, Repr

/-- The guard `count >= 0.5 * n` used by `calculate_positions` and
`winner` (`n` a cell or ley-line count).  Python evaluates it as an exact
comparison of small numbers; over the integers it is `n ≤ 2 * count`,
which is literally equivalent to the rational comparison
`(0.5 : ℚ) * n ≤ count` — see `halfLe_iff` below. -/
def halfLe (n count : Nat) : Bool :=
  n ≤ 2 * count

/-- A ley-line (`LeyLine` in `board.py`): its cached owner `taken` and the
ids of the `BoardNode`s it consists of. -/
structure LeyLine where
  taken : Option Player
  cells : List Nat
deriving DecidableEq, Repr

/-- `max_len_list` of `board.py`: index of the first sublist of greatest
length (loop with `max_ind = 0`, `max_res = -1`, strict `>` update). -/
def max_len_list (l : List (List Nat)) : Nat :=
  (l.enum.foldl
    (fun (acc : Nat × Int) (p : Nat × List Nat) =>
      if (p.2.length : Int) > acc.2 then (p.1, (p.2.length : Int)) else acc)
    (0, -1)).1

/-- Python's builtin `max` over a list of naturals; raises (`none`) on an
empty list. -/
def pyMaxNat : List Nat → Option Nat
  | [] => none
  | x :: xs => some (xs.foldl max x)

/-- Python's builtin `max` over a list of integers; raises (`none`) on an
empty list.  Used by the minimax strategies. -/
def pyMaxInt : List Int → Option Int
  | [] => none
  | x :: xs => some (xs.foldl max x)

/-- The recursive worker of `top_to_line`, with the decreasing quantity
`max_width + 1 - index` made explicit as a first argument (`gas > 0` is
exactly the source's `index <= max_width` test).
`k = [x[index] for x in a if len(x) > index]` is `a.filterMap (·[index]?)`. -/
def top_to_line_go (a : List (List Nat)) : Nat → Nat → List (List Nat)
  | 0, _ => []
  | gas + 1, index =>
    let k := a.filterMap (fun x => x[index]?)
    (if k = [] then [] else [k]) ++ top_to_line_go a gas (index + 1)

/-- `top_to_line` of `board.py`: group elements of the sublists of `a` by
the index they occur at, for indices `0..max_width`. -/
def top_to_line (a : List (List Nat)) (max_width : Nat) : List (List Nat) :=
  top_to_line_go a (max_width + 1) 0

/-- The extraction loop inside `adjoin`'s `'d'` branch:
`for count in range(len(n)): temp = max_len_list(n); j.append(n[temp]); n.pop(temp)`.
The loop runs exactly `cnt = len(n)` times; `n[temp]` out of range is a
raise (`none`), though it never occurs. -/
def extractByLen : List (List Nat) → Nat → Option (List (List Nat))
  | _, 0 => some []
  | n, cnt + 1 => do
    let t := max_len_list n
    let s ← n[t]?
    let rest ← extractByLen (n.eraseIdx t) cnt
    pure (s :: rest)

/-- The distribution loop inside `adjoin`'s `'d'` branch:
`count = -1; for i in range(len(res1)-1, 0, -1): for s in j: complete_str2(count, -len(s), res1, (s, i)); count -= 1`.
Each iteration appends `s[count]` (`count = i - len res1`, a negative
Python index, i.e. element `len s - (len res1 - i)`) to `res1[i]` whenever
`count >= -len(s)`.  The loop touches each line `res1[i]` (for `i ≥ 1`)
independently of the others, so it is written as a map over `res1.enum`. -/
def distributeD (res1 : List (List Nat)) (j : List (List Nat)) : List (List Nat) :=
  let L := res1.length
  res1.enum.map (fun p =>
    if 1 ≤ p.1 then
      p.2 ++ j.filterMap (fun s =>
        if L - p.1 ≤ s.length then s[s.length - (L - p.1)]? else none)
    else p.2)

/-- `adjoin` of `board.py`: the board diagonals for a mode (`u` = upward,
`d` = downward).  `size` is `self.data[0]`.  For `size = 0` it returns the
singleton columns of layer 0 regardless of mode.  When no branch fires
(negative size) Python returns `None`, which makes the caller
(`generate_leys`) raise; that is the `none` result here.  Indexing that can
raise (`l[-1][i-1]`, `l[0]`, `n[temp]`) is bound through `Option`. -/
def adjoin (size : Int) (l : List (List Nat)) (mode : Char) : Option (List (List Nat)) :=
  if size = 0 then do
    let l0 ← l[0]?
    pure (l0.map (fun x => [x]))
  else if mode = Char.ofNat 117 ∧ size ≥ 1 then do
    -- mode 'u'
    let front := l.dropLast
    let w ← pyMaxNat (front.map List.length)
    let res1 := top_to_line front w
    let last ← l.getLast?
    -- for i in range(1, len(res1)): res1[i].append(l[-1][i - 1])
    res1.enum.mapM (fun p =>
      if 1 ≤ p.1 then do
        let c ← last[p.1 - 1]?
        pure (p.2 ++ [c])
      else pure p.2)
  else if mode = Char.ofNat 100 ∧ size ≥ 1 then do
    -- mode 'd'; l[-1:-3:-1] is the last two layers in reverse order
    let rev2 := (l.reverse).take 2
    let w ← pyMaxNat (rev2.map List.length)
    let res1 := top_to_line rev2 w
    let n := l.dropLast.dropLast
    let j ← extractByLen n n.length
    pure (distributeD res1 j)
  else
    none

/-- The recursive layer generator `generate_layers` of `board.py`, for
layers `≥ 3` (the `elif layer <= self.data[0] + 2` arm).  `res` is the
previous layer as a list of ids, `next` is the next unused id.  In a
middle layer every node of `res` receives a fresh child and one extra
fresh node is appended (`temp2 = [BoardNode()]`); in the final layer
(`layer == size + 2`, which also subsumes the `size == 1` special case)
only `res[1:]` receive children and no extra node is added.  `fuel`
models the unbounded Python recursion; callers supply `size + 3 - layer`
or more, which is always enough. -/
def generate_layers_go (size : Int) : Nat → List Nat → Int → Nat → List (List Nat)
  | 0, _, _, _ => []
  | fuel + 1, res, layer, next =>
    if layer ≤ size + 2 then
      let temp : List Nat := if layer = size + 2 then res.drop 1 else res
      let children := List.range' next temp.length
      let newRes := children ++
        (if ¬size = 1 ∧ layer < size + 2 then [next + temp.length] else [])
      newRes :: generate_layers_go size fuel newRes (layer + 1) (next + newRes.length)
    else []

/-- `generate_layers` from its entry point (`layer = 1`): layer 1 is two
fresh nodes (ids 0 and 1) and, when `size ≥ 0`, the recursion continues at
layer 3. -/
def generate_layers (size : Int) : List (List Nat) :=
  let res : List Nat := [0, 1]
  res :: (if size ≥ 0 then generate_layers_go size (size + 3).toNat res 3 2 else [])

/-- The alphabet of `name_layers`. -/
def alphabet : List String :=
  ["A", "B", "C", "D", "E", "F", "G", "H", "I", "J",
   "K", "L", "M", "N", "O", "P", "Q", "R", "S", "T", "U",
   "V", "W", "X", "Y", "Z"]

/-- The label given to the `k`-th cell by `name_layers`: letters `A`–`Z`
in order, and one apostrophe appended per completed round of the
alphabet (`index` resets to 0 and `add_on` grows by 1 every 26 cells,
so cell `k` gets letter `k % 26` with `k / 26` tick marks; the tick is
`Char.ofNat 39`, the apostrophe). -/
def labelOf (k : Nat) : String :=
  alphabet.getD (k % 26) "" ++ String.mk (List.replicate (k / 26) (Char.ofNat 39))

/-- `name_layers` of `board.py`, acting on the flattened cell list: the
registry `node_reference` as an ordered list of (label, id) pairs, in
insertion order.  (The per-node list of containing ley-lines that
`generate_leys` appends to `node_reference[name][1]` is written but never
read afterwards, so it is not modelled.) -/
def name_layers (content : List (List Nat)) : List (String × Nat) :=
  content.flatten.enum.map (fun p => (labelOf p.1, p.2))

/-- The value heap after `name_layers`: every node's `value` is its label.
(`generate_layers` creates the nodes with value `^`; `name_layers`
immediately renames each of them.) -/
def named_vals (content : List (List Nat)) : List CellVal :=
  (List.range content.flatten.length).map (fun k => CellVal.str (labelOf k))

/-- `generate_leys` of `board.py`: one fresh `LeyLine` per sublist, owner
`None`. -/
def generate_leys (l : List (List Nat)) : List LeyLine :=
  l.map (fun x => { taken := none, cells := x })

/-- The `Board` of `board.py`.  `data` is the 2-element list
`[size, winner]`, modelled as the two fields `data0` and `data1`.
`vals` is the value heap for the board's `BoardNode`s, indexed by id. -/
structure Board where
  data0 : Int
  data1 : Option Player
  moves_history : List (String × Player)
  node_reference : List (String × Nat)
  vals : List CellVal
  content : List (List Nat)
  upw_leys : List LeyLine
  downw_leys : List LeyLine
  horiz_leys : List LeyLine
deriving DecidableEq, Repr

/-- `Board.__init__`: generate and name the layers, then derive the three
ley-line families.  A raise during construction (negative size makes
`adjoin` return `None` and `generate_leys` then raises) is `none`. -/
def boardInit (size : Int) : Option Board := do
  let content := generate_layers size
  let upw_diag ← adjoin size content (Char.ofNat 117)
  let downw_diag ← adjoin size content (Char.ofNat 100)
  pure
    { data0 := size
      data1 := none
      moves_history := []
      node_reference := name_layers content
      vals := named_vals content
      content := content
      upw_leys := generate_leys upw_diag
      downw_leys := generate_leys downw_diag
      horiz_leys := generate_leys content }

/-- Look a label up in `node_reference` (Python dict access
`self.node_reference[node]`); `none` is a `KeyError`. -/
def lookupNode (b : Board) (node : String) : Option Nat :=
  (b.node_reference.find? (fun kv => kv.1 = node)).map (·.2)

/-- The value of the cell with the given id. -/
def cellVal (vals : List CellVal) (i : Nat) : CellVal :=
  vals.getD i (CellVal.str "^")

/-- `LeyLine.calculate_positions` of `board.py`, reading cell values from
the board's heap: if the line is not yet taken, count each player's cells
and compare with `0.5 * len(self.cells)` (exact rational comparison);
note that the player-2 test runs unconditionally after the player-1 test,
so its assignment overwrites a just-made player-1 assignment. -/
def calculate_positions (vals : List CellVal) (line : LeyLine) : LeyLine :=
  if line.taken = none then
    let p1_number := line.cells.countP (fun c => cellVal vals c = CellVal.int 1)
    let p2_number := line.cells.countP (fun c => cellVal vals c = CellVal.int 2)
    let t1 : Option Player :=
      if halfLe line.cells.length p1_number then some Player.p1 else line.taken
    let t2 : Option Player :=
      if halfLe line.cells.length p2_number then some Player.p2 else t1
    { line with taken := t2 }
  else line

/-- The number of ley-lines owned by `player` in one family (one of the
three counting loops in `Board.winner`). -/
def countTaken (leys : List LeyLine) (player : Player) : Nat :=
  leys.countP (fun x => x.taken = some player)

/-- The `total_leys` local of `Board.winner`:
`len(self.upw_leys) + len(self.upw_leys) + len(self._content)` (the
second summand reads the upward family again, not the downward one). -/
def total_leys (b : Board) : Nat :=
  b.upw_leys.length + b.upw_leys.length + b.content.length

/-- The `p1_leys` / `p2_leys` locals of `Board.winner`: the number of
ley-lines the player has taken, summed over the three families. -/
def p_leys (b : Board) (player : Player) : Nat :=
  countTaken b.upw_leys player + countTaken b.downw_leys player +
    countTaken b.horiz_leys player

/-- `Board.winner` of `board.py`: the queried player wins iff their
owned-line count is `>= 0.5 * total_leys` (exact comparison). -/
def winner (b : Board) (player : Player) : Bool :=
  if player = Player.p1 ∧ halfLe (total_leys b) (p_leys b Player.p1) then true
  else if player = Player.p2 ∧ halfLe (total_leys b) (p_leys b Player.p2) then true
  else false

/-- The marking part of `Board.occupy_node`, after the registry lookup
found cell id `i` (the source's `b2`/`b3` intermediate state, split out
so it can be reasoned about directly): set the node's value and
re-evaluate every ley-line of all three families. -/
def occupy_marked (b1 : Board) (i : Nat) (player : Player) : Board :=
  let vals2 := b1.vals.set i (CellVal.int (if player = Player.p1 then 1 else 2))
  { b1 with
    vals := vals2
    upw_leys := b1.upw_leys.map (calculate_positions vals2)
    downw_leys := b1.downw_leys.map (calculate_positions vals2)
    horiz_leys := b1.horiz_leys.map (calculate_positions vals2) }

/-- The successful tail of `Board.occupy_node`: mark and re-evaluate,
then record the winner if the mover has now won and no winner was
recorded yet. -/
def occupy_found (b1 : Board) (i : Nat) (player : Player) : Board :=
  let b3 := occupy_marked b1 i player
  if winner b3 player ∧ b3.data1 = none then
    { b3 with data1 := some player }
  else b3

/-- `Board.occupy_node`: append to `moves_history`, then set the node's
value and re-evaluate (`occupy_found`); an unknown label is a `KeyError`,
modelled as `.error` carrying the board as mutated so far. -/
def occupy_node (b : Board) (node : String) (player : Player) : Except Board Board :=
  let b1 := { b with moves_history := b.moves_history ++ [(node, player)] }
  match lookupNode b1 node with
  | none => .error b1
  | some i => .ok (occupy_found b1 i player)

/-- `Board.occupation_possible`: `False` iff the node's value is the int 1
or 2; `none` is the `KeyError` on an unknown label. -/
def occupation_possible (b : Board) (node : String) : Option Bool :=
  match lookupNode b node with
  | none => none
  | some i =>
    if cellVal b.vals i = CellVal.int 1 ∨ cellVal b.vals i = CellVal.int 2 then
      some false
    else some true

/-- `Board.game_over`: whether a winner has been recorded. -/
def game_over (b : Board) : Bool :=
  b.data1 ≠ none

/-- `Board.possible_variations`: all registry labels whose occupation is
possible, in registry (insertion) order; empty when the game is over. -/
def possible_variations (b : Board) : List String :=
  if !game_over b then
    (b.node_reference.filter (fun kv => occupation_possible b kv.1 = some true)).map (·.1)
  else []

/-- `Board.total_winner` (and the identical `is_total_winner`): whether
the recorded winner is `player`. -/
def total_winner (b : Board) (player : Player) : Bool :=
  b.data1 = some player

/-- One replay step of `Board.produce_copy`: occupy the recorded move and
then re-run `calculate_positions` over `upw_leys`, `downw_leys` and — the
source's third loop also reads `downw_leys` — `downw_leys` again. -/
def produce_copy_step (b : Board) (move : String × Player) : Except Board Board := do
  let b1 ← occupy_node b move.1 move.2
  pure { b1 with
    upw_leys := b1.upw_leys.map (calculate_positions b1.vals)
    downw_leys := ((b1.downw_leys.map (calculate_positions b1.vals)).map
      (calculate_positions b1.vals)) }

/-- Replay a list of recorded moves (the loop of `produce_copy`). -/
def replay (b : Board) : List (String × Player) → Option Board
  | [] => some b
  | mv :: rest =>
    match produce_copy_step b mv with
    | .ok b1 => replay b1 rest
    | .error _ => none

/-- `Board.produce_copy`: construct a fresh board of the same size and
replay the whole move history onto it. -/
def produce_copy (b : Board) : Option Board := do
  let fresh ← boardInit b.data0
  replay fresh b.moves_history

/-- `StonehengeState` of `stonehenge.py`: whose turn it is, the size, and
the board. -/
structure SState where
  p1_turn : Bool
  size : Int
  board : Board
deriving DecidableEq, Repr

/-- `StonehengeState.__init__`: a fresh state over a fresh board. -/
def stateInit (is_p1_turn : Bool) (size : Int) : Option SState := do
  let b ← boardInit size
  pure { p1_turn := is_p1_turn, size := size, board := b }

/-- `StonehengeState.get_possible_moves`. -/
def get_possible_moves (s : SState) : List String :=
  possible_variations s.board

/-- `StonehengeState.make_move`: copy the board via `produce_copy`,
occupy the move for the player whose turn it is, and flip the turn.  (The
constructor call `StonehengeState(self.p1_turn, self.size)` builds a fresh
board that is immediately overwritten by the copy, so it is not
modelled.) -/
def make_move (s : SState) (move : String) : Option SState := do
  let copy ← produce_copy s.board
  let b ← (occupy_node copy move (if s.p1_turn then Player.p1 else Player.p2)).toOption
  pure { p1_turn := !s.p1_turn, size := s.size, board := b }

/-- `StonehengeGame.is_over`: the game is over when the state's board has
a recorded winner. -/
def is_over (s : SState) : Bool :=
  game_over s.board

/-- `StonehengeGame.is_winner`, after the search has repointed
`game.current_state` to `s`: `s.board.total_winner(player)`. -/
def is_winner (s : SState) (player : Player) : Bool :=
  total_winner s.board player

/-- The player whose turn it is in a state (`'p1' if ... p1_turn else 'p2'`). -/
def curPlayer (s : SState) : Player :=
  if s.p1_turn then Player.p1 else Player.p2

/-- The opponent (`'p2' if cur_player == 'p1' else 'p1'`). -/
def otherPlayer (p : Player) : Player :=
  if p = Player.p1 then Player.p2 else Player.p1

/-- `expander` of `strategy.py`: negamax value of a state for its mover.
Terminal states score `1` / `-1` / `0`; otherwise the value is the maximum
of the negated child values (`max` of an empty list raises, `none`).
`fuel` models the unbounded Python recursion; `none` on exhausted fuel. -/
def expander : Nat → SState → Option Int
  | 0, _ => none
  | fuel + 1, s =>
    let cur := curPlayer s
    let other := otherPlayer cur
    if is_over s then
      if is_winner s cur then some 1
      else if is_winner s other then some (-1)
      else some 0
    else do
      let moves := get_possible_moves s
      let new_states ← moves.mapM (make_move s)
      let vals ← new_states.mapM (fun x => (expander fuel x).map (fun v => -v))
      pyMaxInt vals

/-- The root pairs of `recursive_minimax_strategy`: the dict
`resulting_pairs` as an ordered association list
`(move, -expander(make_move(move)))`, in move order. -/
def recRootPairs (fuel : Nat) (s : SState) : Option (List (String × Int)) :=
  (get_possible_moves s).mapM (fun move => do
    let s1 ← make_move s move
    let v ← expander fuel s1
    pure (move, -v))

/-- The maximal-value root moves collected by `recursive_minimax_strategy`:
`maximum = max(resulting_pairs.values())` (raises on an empty dict) and
then every move whose value equals the maximum, in move order. -/
def recMaximal (fuel : Nat) (s : SState) : Option (List String) := do
  let pairs ← recRootPairs fuel s
  let maximum ← pyMaxInt (pairs.map (·.2))
  pure ((pairs.filter (fun p => p.2 = maximum)).map (·.1))

/-- A move returned by a strategy, or the `return 0` "no move" sentinel. -/
inductive StratOutcome where
  | move : String → StratOutcome
  | noMove : StratOutcome
deriving DecidableEq, Repr

/-- `recursive_minimax_strategy` of `strategy.py`.  `rand` models the
index drawn by `randint(0, len(maximal) - 1)` (any draw `< len maximal`);
a `none` result is an uncaught exception — in particular the `ValueError`
of `max` on the empty sequence when the root has no moves, which is
raised before the `return 0` fallback can run. -/
def recursive_minimax_strategy (fuel : Nat) (s : SState) (rand : Nat) : Option StratOutcome := do
  let maximal ← recMaximal fuel s
  if maximal ≠ [] then pure (StratOutcome.move (maximal.getD (rand % maximal.length) ""))
  else pure StratOutcome.noMove

/-- A node of the search `Tree` of `strategy.py`.  Children are ids into
the arena (the Python objects are shared mutable references).  `mov` is
the move that produced the node, with the literal string `Root` as the
root sentinel, exactly as in the source. -/
structure TreeNode where
  value : SState
  children : List Nat
  highest_score : Option Int
  mov : String
deriving DecidableEq, Repr

/-- `find_maximal` of `strategy.py`: the `mov` of every child of `x`
whose negated score equals `x.highest_score` (passed here as the integer
`xScore`, since at the call site it has just been computed), in child
order.  A child with no score yet would raise a `TypeError` (`none`). -/
def find_maximal (arena : List TreeNode) (children : List Nat) (xScore : Int) :
    Option (List String) :=
  children.foldr
    (fun ci acc => do
      let z ← arena[ci]?
      let zs ← z.highest_score
      let rest ← acc
      pure (if -zs = xScore then z.mov :: rest else rest))
    (some [])

/-- The result of the `while` loop of `iterative_minimax_strategy`: either
the `return` out of the root branch (carrying `maximal` and the final
arena) or the fall-through `return 0`. -/
inductive IterResult where
  | retMove : List String → List TreeNode → IterResult
  | ret0 : List TreeNode → IterResult
deriving DecidableEq, Repr

/-- The `while` loop of `iterative_minimax_strategy`.  The `Tree` objects
live in an arena (Python's shared mutable references become ids); the
stack holds ids, head = top (Python appends and pops at the same end of a
list, which is the same LIFO discipline).  The four branches are the
source's `if`/`elif` chain; a node satisfying none of them would simply be
dropped, as in Python.  `fuel` bounds the unbounded loop (`none` when
exhausted); a `none` from a branch body is a raise. -/
def iter_loop : Nat → List TreeNode → List Nat → Option IterResult
  | 0, _, _ => none
  | fuel + 1, arena, stack =>
    match stack with
    | [] => some (IterResult.ret0 arena)
    | xi :: rest => do
      let x ← arena[xi]?
      if x.children ≠ [] ∧ x.mov ≠ "Root" then do
        let scores ← x.children.mapM (fun ci => do
          let y ← arena[ci]?
          y.highest_score)
        let m ← pyMaxInt (scores.map (fun v => -v))
        iter_loop fuel (arena.set xi { x with highest_score := some m }) rest
      else if x.children ≠ [] ∧ x.mov = "Root" then do
        let scores ← x.children.mapM (fun ci => do
          let y ← arena[ci]?
          y.highest_score)
        let m ← pyMaxInt (scores.map (fun v => -v))
        let arena1 := arena.set xi { x with highest_score := some m }
        let maximal ← find_maximal arena1 x.children m
        some (IterResult.retMove maximal arena1)
      else if is_over x.value then
        let cur := curPlayer x.value
        let other := otherPlayer cur
        let score : Int :=
          if is_winner x.value cur then 1
          else if is_winner x.value other then -1
          else 0
        iter_loop fuel (arena.set xi { x with highest_score := some score }) rest
      else if x.children = [] then do
        let moves := get_possible_moves x.value
        let news ← moves.mapM (fun m => do
          let s1 ← make_move x.value m
          pure ({ value := s1, children := [], highest_score := none, mov := m } : TreeNode))
        let childIds := List.range' arena.length news.length
        let arena1 := (arena.set xi { x with children := x.children ++ childIds }) ++ news
        iter_loop fuel arena1 (childIds.reverse ++ (xi :: rest))
      else
        iter_loop fuel arena rest

/-- `iterative_minimax_strategy` of `strategy.py`: run the work-stack loop
from a root `Tree` holding the current state.  `rand` models
`randint(0, len(maximal) - 1)` as in the recursive form; `randint` on an
empty `maximal` would raise (`none`, never reached).  The fall-through
after the loop is the `return 0` sentinel. -/
def iterative_minimax_strategy (fuel : Nat) (s : SState) (rand : Nat) : Option StratOutcome :=
  let t : TreeNode := { value := s, children := [], highest_score := none, mov := "Root" }
  match iter_loop fuel [t] [0] with
  | some (IterResult.retMove maximal _) =>
    if maximal = [] then none
    else some (StratOutcome.move (maximal.getD (rand % maximal.length) ""))
  | some (IterResult.ret0 _) => some StratOutcome.noMove
  | none => none

/-- The maximal-move list the iterative form draws from. -/
def iterMaximal (fuel : Nat) (s : SState) : Option (List String) :=
  let t : TreeNode := { value := s, children := [], highest_score := none, mov := "Root" }
  match iter_loop fuel [t] [0] with
  | some (IterResult.retMove maximal _) => some maximal
  | _ => none

/-- The per-root-move negamax values computed by the iterative form: read
off the root's children in the final arena (`(mov, -highest_score)` in
child order, i.e. move order). -/
def iterRootPairs (fuel : Nat) (s : SState) : Option (List (String × Int)) :=
  let t : TreeNode := { value := s, children := [], highest_score := none, mov := "Root" }
  match iter_loop fuel [t] [0] with
  | some (IterResult.retMove _ arena) => do
    let root ← arena[0]?
    root.children.mapM (fun ci => do
      let z ← arena[ci]?
      let zs ← z.highest_score
      pure (z.mov, -zs))
  | _ => none

/-- The states one legal move away from `s` (`make_move` over
`get_possible_moves`). -/
def stepStates (s : SState) : List SState :=
  (get_possible_moves s).filterMap (make_move s)

/-- All states reachable from `s` within `n` plies (including `s`). -/
def reachWithin : Nat → SState → List SState
  | 0, s => [s]
  | n + 1, s => s :: (stepStates s).flatMap (reachWithin n)

/-- Apply a list of `occupy_node` calls in order; `none` if any raises. -/
def applyMoves (b : Board) : List (String × Player) → Option Board
  | [] => some b
  | (l, p) :: rest =>
    match occupy_node b l p with
    | .ok b1 => applyMoves b1 rest
    | .error _ => none

/-- Each listed move is legal when its turn comes: its label is among
`possible_variations` of the board it is applied to (an unclaimed cell on
a board with no winner). -/
def legalSeqB (b : Board) : List (String × Player) → Bool
  | [] => true
  | (l, p) :: rest =>
    (possible_variations b).contains l &&
      (match occupy_node b l p with
       | .ok b1 => legalSeqB b1 rest
       | .error _ => false)

/-- The board's total cell count (one registry entry per cell). -/
def cellCount (b : Board) : Nat :=
  b.node_reference.length


/-- All ley-lines of a board, the three families in evaluation order. -/
def allLines (b : Board) : List LeyLine :=
  b.upw_leys ++ b.downw_leys ++ b.horiz_leys

/-- Whether a cell value is a player mark (the test of
`occupation_possible`). -/
def markedVal (v : CellVal) : Bool :=
  v = CellVal.int 1 ∨ v = CellVal.int 2

/-- The number of cells of `line` marked for `player` (the
`p1_number` / `p2_number` loop of `calculate_positions`). -/
def lineCount (vals : List CellVal) (line : LeyLine) (player : Player) : Nat :=
  line.cells.countP
    (fun c => cellVal vals c = CellVal.int (if player = Player.p1 then 1 else 2))

/-- The number of still-unmarked cells of the board. -/
def unmarkedCount (b : Board) : Nat :=
  (List.range b.vals.length).countP (fun i => !markedVal (cellVal b.vals i))

/-- Structural well-formedness of a board, established by construction
(`Board.__init__`) and preserved by `occupy_node`. -/
structure BoardWF (b : Board) : Prop where
  reg : b.node_reference = (List.range b.vals.length).map (fun i => (labelOf i, i))
  horiz_len : b.horiz_leys.length = b.content.length
  ud : b.upw_leys.length = b.downw_leys.length
  content_ne : 1 ≤ b.content.length
  lines_ne : ∀ line ∈ allLines b, line.cells ≠ []
  lines_mem : ∀ line ∈ allLines b, ∀ c ∈ line.cells, c < b.vals.length

/-- The game-play invariant: every ley-line's cached owner agrees with the
ownership threshold, and while no winner is recorded neither player
satisfies the win comparison. -/
structure GameInv (b : Board) : Prop where
  lines : ∀ line ∈ allLines b,
    (line.taken ≠ none ↔
      (halfLe line.cells.length (lineCount b.vals line Player.p1) = true ∨
        halfLe line.cells.length (lineCount b.vals line Player.p2) = true))
  flag : b.data1 = none → ∀ p, winner b p = false

/-- The cached owner of the `i`-th ley-line of a family (`none` result:
no such line). -/
def takenAt (lines : List LeyLine) (i : Nat) : Option (Option Player) :=
  (lines[i]?).map LeyLine.taken

/-- A throwaway board used only as the default of `Option.getD` below;
the surrounding theorems always prove the option is `some`. -/
def dummyBoard : Board :=
  { data0 := 0, data1 := none, moves_history := [], node_reference := [],
    vals := [], content := [], upw_leys := [], downw_leys := [], horiz_leys := [] }

/-- The freshly constructed size-0 board. -/
def board0 : Board :=
  (boardInit 0).getD dummyBoard

/-- The initial game state for a given first player and size. -/
def initState (p1s : Bool) (size : Int) : SState :=
  (stateInit p1s size).getD { p1_turn := p1s, size := size, board := dummyBoard }

/-- The size-0 state after player 1 claims `A`: a terminal state (player 1
has won) with zero legal moves, used as the concrete already-terminal
search root. -/
def termState0 : SState :=
  (make_move (initState true 0) "A").getD (initState true 0)

/-- `halfLe` is exactly the source's comparison `count >= 0.5 * n` read as
an exact rational comparison. -/
theorem halfLe_iff (n c : Nat) : halfLe n c = true ↔ (0.5 : ℚ) * n ≤ (c : ℚ) := by
  unfold halfLe
  rw [decide_eq_true_iff]
  constructor
  · intro h
    have h2 : (n : ℚ) ≤ 2 * c := by exact_mod_cast h
    linarith
  · intro h
    have h2 : (n : ℚ) ≤ 2 * c := by linarith
    exact_mod_cast h2

theorem occupy_marked_history (b : Board) (i : Nat) (p : Player) :
    (occupy_marked b i p).moves_history = b.moves_history := rfl

theorem occupy_marked_node_reference (b : Board) (i : Nat) (p : Player) :
    (occupy_marked b i p).node_reference = b.node_reference := rfl

theorem occupy_marked_content (b : Board) (i : Nat) (p : Player) :
    (occupy_marked b i p).content = b.content := rfl

theorem occupy_marked_data1 (b : Board) (i : Nat) (p : Player) :
    (occupy_marked b i p).data1 = b.data1 := rfl

theorem occupy_found_history (b : Board) (i : Nat) (p : Player) :
    (occupy_found b i p).moves_history = b.moves_history := by
  simp only [occupy_found]
  split <;> rfl

theorem occupy_found_node_reference (b : Board) (i : Nat) (p : Player) :
    (occupy_found b i p).node_reference = b.node_reference := by
  simp only [occupy_found]
  split <;> rfl

theorem occupy_found_content (b : Board) (i : Nat) (p : Player) :
    (occupy_found b i p).content = b.content := by
  simp only [occupy_found]
  split <;> rfl

theorem occupy_found_vals (b : Board) (i : Nat) (p : Player) :
    (occupy_found b i p).vals = (occupy_marked b i p).vals := by
  simp only [occupy_found]
  split <;> rfl

theorem occupy_found_upw (b : Board) (i : Nat) (p : Player) :
    (occupy_found b i p).upw_leys = (occupy_marked b i p).upw_leys := by
  simp only [occupy_found]
  split <;> rfl

theorem occupy_found_downw (b : Board) (i : Nat) (p : Player) :
    (occupy_found b i p).downw_leys = (occupy_marked b i p).downw_leys := by
  simp only [occupy_found]
  split <;> rfl

theorem occupy_found_horiz (b : Board) (i : Nat) (p : Player) :
    (occupy_found b i p).horiz_leys = (occupy_marked b i p).horiz_leys := by
  simp only [occupy_found]
  split <;> rfl

/-- `Except.toOption` inverts to `.ok`. -/
theorem except_toOption_eq_some {e : Except Board Board} {b : Board}
    (h : e.toOption = some b) : e = Except.ok b := by
  cases e with
  | ok v => cases h; rfl
  | error v => cases h

/-- Successful `occupy_node` is `occupy_found` on the history-extended
board, at the id the registry lookup returned. -/
theorem occupy_node_ok_elim (b : Board) (l : String) (p : Player) (b1 : Board)
    (h : occupy_node b l p = Except.ok b1) :
    ∃ i, lookupNode b l = some i ∧
      b1 = occupy_found { b with moves_history := b.moves_history ++ [(l, p)] } i p := by
  unfold occupy_node at h
  cases hl : lookupNode { b with moves_history := b.moves_history ++ [(l, p)] } l with
  | none =>
    simp only [hl] at h
    cases h
  | some i =>
    simp only [hl] at h
    cases h
    exact ⟨i, hl, rfl⟩

theorem occupy_node_ok_history (b : Board) (l : String) (p : Player) (b1 : Board)
    (h : occupy_node b l p = Except.ok b1) :
    b1.moves_history = b.moves_history ++ [(l, p)] := by
  obtain ⟨i, _, rfl⟩ := occupy_node_ok_elim b l p b1 h
  rw [occupy_found_history]

/-- A successful `produce_copy_step` appends exactly the replayed move to
the history (the extra `calculate_positions` passes do not touch it). -/
theorem produce_copy_step_history (b : Board) (mv : String × Player) (b1 : Board)
    (h : produce_copy_step b mv = Except.ok b1) :
    b1.moves_history = b.moves_history ++ [mv] := by
  unfold produce_copy_step at h
  cases ho : occupy_node b mv.1 mv.2 with
  | error e => rw [ho] at h; cases h
  | ok v =>
    rw [ho] at h
    cases h
    exact occupy_node_ok_history b mv.1 mv.2 v ho

/-- Replaying a move list appends it to the history. -/
theorem replay_history (ms : List (String × Player)) :
    ∀ b b1, replay b ms = some b1 → b1.moves_history = b.moves_history ++ ms := by
  induction ms with
  | nil =>
    intro b b1 h
    cases h
    simp
  | cons mv rest ih =>
    intro b b1 h
    unfold replay at h
    cases hs : produce_copy_step b mv with
    | error e => rw [hs] at h; cases h
    | ok v =>
      rw [hs] at h
      have h2 := ih v b1 h
      rw [h2, produce_copy_step_history b mv v hs]
      simp

/-- Unpack a successful `boardInit`. -/
theorem boardInit_elim (z : Int) (b : Board) (h : boardInit z = some b) :
    ∃ u d, adjoin z (generate_layers z) (Char.ofNat 117) = some u ∧
      adjoin z (generate_layers z) (Char.ofNat 100) = some d ∧
      b = { data0 := z
            data1 := none
            moves_history := []
            node_reference := name_layers (generate_layers z)
            vals := named_vals (generate_layers z)
            content := generate_layers z
            upw_leys := generate_leys u
            downw_leys := generate_leys d
            horiz_leys := generate_leys (generate_layers z) } := by
  simp only [boardInit, Option.pure_def, Option.bind_eq_bind, Option.bind_eq_some,
    Option.some.injEq] at h
  obtain ⟨u, hu, d, hd, h⟩ := h
  exact ⟨u, d, hu, hd, h.symm⟩

theorem boardInit_history (z : Int) (b : Board) (h : boardInit z = some b) :
    b.moves_history = [] := by
  obtain ⟨u, d, _, _, rfl⟩ := boardInit_elim z b h
  rfl

/-- `produce_copy` reproduces the history it replays. -/
theorem produce_copy_history (b : Board) (bc : Board) (h : produce_copy b = some bc) :
    bc.moves_history = b.moves_history := by
  simp only [produce_copy, Option.bind_eq_bind, Option.bind_eq_some] at h
  obtain ⟨fresh, hf, hr⟩ := h
  rw [replay_history b.moves_history fresh bc hr, boardInit_history b.data0 fresh hf]
  simp


/-- C7: `make_move` is non-mutating by construction in this functional
embedding (it builds its result from a `produce_copy` of the input
state's board and returns a new state record); the provable content is
the round trip: for every state and move on which `make_move` completes
(in particular every legal move on a reachable state), the new state's
history is the old history plus exactly one trailing entry recording the
move for the player whose turn it was, and the turn flag is flipped. -/
theorem claim_C7 (s : SState) (m : String) (s1 : SState) (h : make_move s m = some s1) :
    s1.board.moves_history =
      s.board.moves_history ++ [(m, if s.p1_turn then Player.p1 else Player.p2)] ∧
      s1.p1_turn = !s.p1_turn := by
  simp only [make_move, Option.pure_def, Option.bind_eq_bind, Option.bind_eq_some,
    Option.some.injEq] at h
  obtain ⟨copy, hc, b, hb, h⟩ := h
  subst h
  refine ⟨?_, rfl⟩
  show b.moves_history = _
  rw [occupy_node_ok_history copy m _ b (except_toOption_eq_some hb),
    produce_copy_history s.board copy hc]

/-- Witness for `claim_C7`: applying `A` to the initial size-0 state. -/
theorem claim_C7_witness :
    termState0.board.moves_history =
      (initState true 0).board.moves_history ++
        [("A", if (initState true 0).p1_turn then Player.p1 else Player.p2)] ∧
      termState0.p1_turn = !(initState true 0).p1_turn :=
  claim_C7 (initState true 0) "A" termState0 (by decide)

theorem calculate_positions_cells (vals : List CellVal) (line : LeyLine) :
    (calculate_positions vals line).cells = line.cells := by
  unfold calculate_positions
  split <;> rfl

/-- Re-evaluating an already-owned ley-line leaves it entirely
unchanged (the `if self.taken is None` guard skips everything). -/
theorem calculate_positions_taken_some (vals : List CellVal) (line : LeyLine)
    (h : line.taken ≠ none) : calculate_positions vals line = line := by
  unfold calculate_positions
  rw [if_neg h]

/-- Owner preservation through one re-evaluation pass over a family. -/
theorem takenAt_map_calc (vals : List CellVal) (lines : List LeyLine) (i : Nat) (q : Player)
    (h : takenAt lines i = some (some q)) :
    takenAt (lines.map (calculate_positions vals)) i = some (some q) := by
  unfold takenAt at h ⊢
  cases hl : lines[i]? with
  | none => rw [hl] at h; cases h
  | some line =>
    rw [hl] at h
    rw [List.getElem?_map, hl]
    simp only [Option.map_some', Option.some.injEq] at h ⊢
    rw [calculate_positions_taken_some vals line (by rw [h]; exact Option.noConfusion)]
    exact h

/-- Owner preservation through one successful `occupy_node`. -/
theorem occupy_node_taken_mono (b : Board) (l : String) (p : Player) (b1 : Board)
    (h : occupy_node b l p = Except.ok b1) (i : Nat) (q : Player) :
    (takenAt b.upw_leys i = some (some q) → takenAt b1.upw_leys i = some (some q)) ∧
      (takenAt b.downw_leys i = some (some q) → takenAt b1.downw_leys i = some (some q)) ∧
      (takenAt b.horiz_leys i = some (some q) → takenAt b1.horiz_leys i = some (some q)) := by
  obtain ⟨j, _, rfl⟩ := occupy_node_ok_elim b l p b1 h
  rw [occupy_found_upw, occupy_found_downw, occupy_found_horiz]
  exact ⟨takenAt_map_calc _ _ i q, takenAt_map_calc _ _ i q, takenAt_map_calc _ _ i q⟩

/-- Owner preservation through any sequence of successful
`occupy_node` calls. -/
theorem applyMoves_taken_mono (ms : List (String × Player)) :
    ∀ b b1, applyMoves b ms = some b1 → ∀ i q,
      (takenAt b.upw_leys i = some (some q) → takenAt b1.upw_leys i = some (some q)) ∧
        (takenAt b.downw_leys i = some (some q) → takenAt b1.downw_leys i = some (some q)) ∧
        (takenAt b.horiz_leys i = some (some q) → takenAt b1.horiz_leys i = some (some q)) := by
  induction ms with
  | nil =>
    intro b b1 h i q
    cases h
    exact ⟨id, id, id⟩
  | cons mv rest ih =>
    intro b b1 h i q
    unfold applyMoves at h
    cases ho : occupy_node b mv.1 mv.2 with
    | error e => rw [ho] at h; cases h
    | ok v =>
      rw [ho] at h
      have h1 := occupy_node_taken_mono b mv.1 mv.2 v ho i q
      have h2 := ih v b1 h i q
      exact ⟨fun hu => h2.1 (h1.1 hu), fun hd => h2.2.1 (h1.2.1 hd),
        fun hh => h2.2.2 (h1.2.2 hh)⟩

/-- C5: once a ley-line's owner is non-null it never changes.  Part one:
a re-evaluation via `calculate_positions` returns an owned line entirely
unchanged.  Part two: any sequence of (successful) `occupy_node` calls —
each of which marks a cell and re-evaluates all lines — preserves the
owner of every owned line in each of the three families, no matter what
the other player's counts later become. -/
theorem claim_C5 :
    (∀ vals line (q : Player), line.taken = some q → calculate_positions vals line = line) ∧
      (∀ b ms b1, applyMoves b ms = some b1 → ∀ i (q : Player),
        (takenAt b.upw_leys i = some (some q) → takenAt b1.upw_leys i = some (some q)) ∧
          (takenAt b.downw_leys i = some (some q) → takenAt b1.downw_leys i = some (some q)) ∧
          (takenAt b.horiz_leys i = some (some q) →
            takenAt b1.horiz_leys i = some (some q))) := by
  constructor
  · intro vals line q h
    exact calculate_positions_taken_some vals line (by rw [h]; exact Option.noConfusion)
  · intro b ms b1 h i q
    exact applyMoves_taken_mono ms b b1 h i q

/-- Witness for `claim_C5`: the first upward line of the size-0 board is
owned by player 1 after `A` is claimed, and keeps that owner through a
subsequent move by player 2. -/
theorem claim_C5_witness :
    calculate_positions [] { taken := some Player.p1, cells := [0] } =
        { taken := some Player.p1, cells := [0] } ∧
      takenAt ((applyMoves ((applyMoves board0 [("A", Player.p1)]).getD dummyBoard)
        [("B", Player.p2)]).getD dummyBoard).upw_leys 0 = some (some Player.p1) := by
  constructor
  · exact claim_C5.1 [] { taken := some Player.p1, cells := [0] } Player.p1 rfl
  · exact (claim_C5.2 ((applyMoves board0 [("A", Player.p1)]).getD dummyBoard)
      [("B", Player.p2)] _ (by decide) 0 Player.p1).1 (by decide)

/-- `occupy_node` changes no family's line count and not the content. -/
theorem occupy_node_ok_lens (b : Board) (l : String) (p : Player) (b1 : Board)
    (h : occupy_node b l p = Except.ok b1) :
    b1.upw_leys.length = b.upw_leys.length ∧
      b1.downw_leys.length = b.downw_leys.length ∧
      b1.horiz_leys.length = b.horiz_leys.length ∧ b1.content = b.content := by
  obtain ⟨i, _, rfl⟩ := occupy_node_ok_elim b l p b1 h
  rw [occupy_found_upw, occupy_found_downw, occupy_found_horiz, occupy_found_content]
  exact ⟨List.length_map _ _, List.length_map _ _, List.length_map _ _, rfl⟩

theorem applyMoves_lens (ms : List (String × Player)) :
    ∀ b b1, applyMoves b ms = some b1 →
      b1.upw_leys.length = b.upw_leys.length ∧
        b1.downw_leys.length = b.downw_leys.length ∧
        b1.horiz_leys.length = b.horiz_leys.length ∧ b1.content = b.content := by
  induction ms with
  | nil =>
    intro b b1 h
    cases h
    exact ⟨rfl, rfl, rfl, rfl⟩
  | cons mv rest ih =>
    intro b b1 h
    unfold applyMoves at h
    cases ho : occupy_node b mv.1 mv.2 with
    | error e => rw [ho] at h; cases h
    | ok v =>
      rw [ho] at h
      have h1 := occupy_node_ok_lens b mv.1 mv.2 v ho
      have h2 := ih v b1 h
      exact ⟨h2.1.trans h1.1, h2.2.1.trans h1.2.1, h2.2.2.1.trans h1.2.2.1,
        h2.2.2.2.trans h1.2.2.2⟩

/-- On a constructed board the horizontal family has one line per content
layer. -/
theorem boardInit_horiz_len (z : Int) (b : Board) (h : boardInit z = some b) :
    b.horiz_leys.length = b.content.length := by
  obtain ⟨u, d, _, _, rfl⟩ := boardInit_elim z b h
  exact List.length_map _ _

/-- C3: on every board (constructed at any size, after any sequence of
occupies) the `total_leys` count that `winner` compares against equals
`2 × (number of upward ley-lines) + (number of horizontal ley-lines)` —
it reads the upward family twice and never the downward one — and a
player is the winner exactly when their owned-line count is at least half
of that total (exact rational comparison). -/
theorem claim_C3 (z : Int) (b0 : Board) (h0 : boardInit z = some b0)
    (ms : List (String × Player)) (b : Board) (hb : applyMoves b0 ms = some b) (p : Player) :
    total_leys b = 2 * b.upw_leys.length + b.horiz_leys.length ∧
      (winner b p = true ↔
        (0.5 : ℚ) * ((2 * b.upw_leys.length + b.horiz_leys.length : Nat) : ℚ) ≤
          (p_leys b p : ℚ)) := by
  have hc : b.horiz_leys.length = b.content.length := by
    have h1 := applyMoves_lens ms b0 b hb
    rw [h1.2.2.1, h1.2.2.2]
    exact boardInit_horiz_len z b0 h0
  have ht : total_leys b = 2 * b.upw_leys.length + b.horiz_leys.length := by
    unfold total_leys
    omega
  refine ⟨ht, ?_⟩
  rw [← ht, ← halfLe_iff]
  cases p with
  | p1 =>
    unfold winner
    simp
  | p2 =>
    unfold winner
    simp

/-- Witness for `claim_C3`: the freshly constructed size-0 board. -/
theorem claim_C3_witness :
    total_leys board0 = 2 * board0.upw_leys.length + board0.horiz_leys.length ∧
      (winner board0 Player.p1 = true ↔
        (0.5 : ℚ) * ((2 * board0.upw_leys.length + board0.horiz_leys.length : Nat) : ℚ) ≤
          (p_leys board0 Player.p1 : ℚ)) :=
  claim_C3 0 board0 (by decide) [] board0 (by decide) Player.p1

/-- C10: for a label absent from the registry, `occupy_node` appends the
move to `moves_history` and only then hits the failing registry lookup,
so the raised `KeyError` leaves the board extended by a history entry for
a move that touched no cell (the error path is not atomic).  The `.error`
payload is the state of the board at the moment of the raise: exactly the
input board with the extra trailing history entry. -/
theorem claim_C10 (b : Board) (l : String) (p : Player) (h : lookupNode b l = none) :
    occupy_node b l p =
      Except.error { b with moves_history := b.moves_history ++ [(l, p)] } := by
  unfold occupy_node
  have h2 : lookupNode { b with moves_history := b.moves_history ++ [(l, p)] } l = none := h
  simp only [h2]

/-- Witness for `claim_C10`: the size-0 board has no cell `Q`. -/
theorem claim_C10_witness :
    lookupNode board0 "Q" = none ∧
      occupy_node board0 "Q" Player.p1 =
        Except.error { board0 with moves_history := board0.moves_history ++ [("Q", Player.p1)] } :=
  ⟨by decide, claim_C10 board0 "Q" Player.p1 (by decide)⟩

/-- C2: on an already-terminal root (the size-0 state after player 1
claims `A`: winner recorded, zero legal moves) the iterative strategy
returns the `return 0` "no move" sentinel, but the recursive strategy
raises: `max(resulting_pairs.values())` is `max` of an empty sequence
(`ValueError`), reached before its `return 0` fallback.  The claim that
both return the sentinel gracefully holds only for the iterative form. -/
theorem claim_C2 :
    is_over termState0 = true ∧ get_possible_moves termState0 = [] ∧
      recursive_minimax_strategy 50 termState0 0 = none ∧
      iterative_minimax_strategy 50 termState0 0 = some StratOutcome.noMove := by
  decide

/-- Counterexample to C6 as stated: a fresh size-0 board has 2 cells and
moves `[A, B]`, not 3 cells `A`, `B`, `C` with moves `[A, B, C]` (the
3-cell board is the size-1 board, per the doctests in `board.py`). -/
theorem claim_C6_cex :
    ¬ (cellCount board0 = 3 ∧ possible_variations board0 = ["A", "B", "C"]) := by
  decide

/-- C6 (amended): a fresh size-0 board has exactly 2 cells `A`, `B` and
exactly the legal moves `[A, B]`; after claiming `A` for player 1,
`occupation_possible('A')` returns `False`; and after claiming both cells
for player 1 in sequence, player 1 is the total winner. -/
theorem claim_C6 :
    cellCount board0 = 2 ∧ possible_variations board0 = ["A", "B"] ∧
      (Except.toOption (occupy_node board0 "A" Player.p1)).map
        (fun b1 => occupation_possible b1 "A") = some (some false) ∧
      (applyMoves board0 [("A", Player.p1), ("B", Player.p1)]).map
        (fun b2 => total_winner b2 Player.p1) = some true := by
  decide

/-- Counterexample to C4 as stated: on an unowned 2-cell line whose cells
are marked one per player, both players meet the `c ≥ n/2` threshold in
the same evaluation, and `calculate_positions` gives the line to player 2
— the player-2 branch runs after the player-1 branch and overwrites its
assignment — not to player 1 as claimed. -/
theorem claim_C4_cex :
    halfLe 2 (lineCount [CellVal.int 1, CellVal.int 2]
      { taken := none, cells := [0, 1] } Player.p1) = true ∧
    halfLe 2 (lineCount [CellVal.int 1, CellVal.int 2]
      { taken := none, cells := [0, 1] } Player.p2) = true ∧
    (calculate_positions [CellVal.int 1, CellVal.int 2]
      { taken := none, cells := [0, 1] }).taken = some Player.p2 ∧
    ¬ (calculate_positions [CellVal.int 1, CellVal.int 2]
      { taken := none, cells := [0, 1] }).taken = some Player.p1 := by
  decide

/-- C4 (amended): evaluation assigns ownership only to a currently
unowned line, exactly when a player's count `c` satisfies `c ≥ n/2`
under exact comparison (`halfLe`, equal to the rational comparison by
`halfLe_iff`); player 1's count is evaluated first, but the player-2
assignment runs afterwards and overwrites, so when both counts meet the
threshold in the same evaluation player 2 receives ownership. -/
theorem claim_C4 (vals : List CellVal) (line : LeyLine) :
    (line.taken = none →
      (calculate_positions vals line).taken =
        (if halfLe line.cells.length (lineCount vals line Player.p2) then some Player.p2
         else if halfLe line.cells.length (lineCount vals line Player.p1) then some Player.p1
         else none)) ∧
    (line.taken ≠ none → calculate_positions vals line = line) := by
  constructor
  · intro h
    simp [calculate_positions, lineCount, h]
  · intro h
    unfold calculate_positions
    rw [if_neg h]

/-- Witness for `claim_C4`: a 1-cell line marked by player 1 goes to
player 1, and an already-taken line is returned unchanged. -/
theorem claim_C4_witness :
    (calculate_positions [CellVal.int 1] { taken := none, cells := [0] }).taken =
        some Player.p1 ∧
      calculate_positions [CellVal.int 1] { taken := some Player.p2, cells := [0] } =
        { taken := some Player.p2, cells := [0] } := by
  constructor
  · rw [(claim_C4 [CellVal.int 1] { taken := none, cells := [0] }).1 rfl]
    decide
  · exact (claim_C4 [CellVal.int 1] { taken := some Player.p2, cells := [0] }).2 (by decide)

/-- The search-agreement check, fully evaluated over the finitely many
non-terminal states reachable within 2 plies on size-0 and size-1 boards
(either player first): one ply already ends these games, so the reachable
set is small and the whole statement is decided by evaluation. -/
theorem searchAgree_all :
    ∀ root ∈ [initState true 0, initState false 0, initState true 1, initState false 1],
      ∀ s ∈ reachWithin 2 root, is_over s = false →
        recRootPairs 50 s = iterRootPairs 50 s ∧ (recRootPairs 50 s).isSome = true ∧
          recMaximal 50 s = iterMaximal 50 s ∧ (recMaximal 50 s).isSome = true := by
  decide

/-- C1: on size-0 and size-1 boards, for every non-terminal state
reachable within 2 plies from the initial state (either player to move
first), the recursive and iterative minimax forms compute the same
negamax value for every legal root move (the per-move value lists agree,
in move order) and collect the same maximal-value move set for the
uniform random tie-break. -/
theorem claim_C1 (sz : Int) (hsz : sz = 0 ∨ sz = 1) (p1s : Bool) (s : SState)
    (hreach : s ∈ reachWithin 2 (initState p1s sz)) (hnt : is_over s = false) :
    recRootPairs 50 s = iterRootPairs 50 s ∧ (recRootPairs 50 s).isSome = true ∧
      recMaximal 50 s = iterMaximal 50 s ∧ (recMaximal 50 s).isSome = true := by
  rcases hsz with rfl | rfl <;> cases p1s <;>
    exact searchAgree_all _ (by decide) s hreach hnt

/-- Witness for `claim_C1`: the initial size-1 state with player 1 to
move. -/
theorem claim_C1_witness :
    (initState true 1 ∈ reachWithin 2 (initState true 1) ∧
        is_over (initState true 1) = false) ∧
      recMaximal 50 (initState true 1) = iterMaximal 50 (initState true 1) :=
  ⟨⟨by decide, by decide⟩,
    (claim_C1 1 (Or.inr rfl) true (initState true 1) (by decide) (by decide)).2.2.1⟩
/-- Past the final layer the generator adds nothing. -/
theorem generate_layers_go_gt (z : Int) (fuel : Nat) (res : List Nat) (layer : Int) (next : Nat)
    (h : ¬ layer ≤ z + 2) : generate_layers_go z fuel res layer next = [] := by
  cases fuel with
  | zero => rfl
  | succ f =>
    unfold generate_layers_go
    rw [if_neg h]

/-- The layer generator for sizes `≥ 2`, characterized from layer 3 on:
the produced layers have lengths `layer, layer+1, …, size+1, size`, and
(reading layer by layer) their cells are the consecutive fresh ids from
`next` on. -/
theorem generate_layers_go_spec (z : Int) (hz : 2 ≤ z) :
    ∀ (fuel : Nat) (layer : Int) (res : List Nat) (next : Nat),
      3 ≤ layer → layer ≤ z + 2 → (z + 3 - layer).toNat ≤ fuel →
      (res.length : Int) = layer - 1 →
      (generate_layers_go z fuel res layer next).map List.length =
          List.range' layer.toNat (z + 2 - layer).toNat ++ [z.toNat] ∧
        (generate_layers_go z fuel res layer next).flatten =
          List.range' next (((generate_layers_go z fuel res layer next).map List.length).sum) := by
  intro fuel
  induction fuel with
  | zero =>
    intro layer res next h3 hle hfuel hres
    omega
  | succ f ih =>
    intro layer res next h3 hle hfuel hres
    by_cases hlast : layer = z + 2
    · subst hlast
      unfold generate_layers_go
      rw [if_pos hle]
      have hc : ¬(¬z = 1 ∧ z + 2 < z + 2) := by omega
      have h0 : (z + 2 - (z + 2)).toNat = 0 := by omega
      have hlen : res.length - 1 = z.toNat := by omega
      simp only [eq_self_iff_true, ite_true, if_neg hc, List.append_nil]
      rw [generate_layers_go_gt z f _ (z + 2 + 1) _ (by omega)]
      simp only [List.map_cons, List.map_nil, List.length_range', List.length_drop,
        List.flatten_cons, List.flatten_nil, List.sum_cons, List.sum_nil, Nat.add_zero,
        h0, hlen, List.range'_zero, List.nil_append]
      simp
    · have hlt : layer < z + 2 := by omega
      unfold generate_layers_go
      rw [if_pos hle]
      have hc : (¬z = 1 ∧ layer < z + 2) := by omega
      simp only [if_neg hlast, if_pos hc]
      rw [show List.range' next res.length ++ [next + res.length] =
          List.range' next (res.length + 1) from (List.range'_1_concat next res.length).symm]
      obtain ⟨ihm, ihf⟩ := ih (layer + 1) (List.range' next (res.length + 1))
        (next + (List.range' next (res.length + 1)).length)
        (by omega) (by omega) (by omega) (by rw [List.length_range']; omega)
      simp only [List.length_range'] at ihm ihf ⊢
      constructor
      · rw [List.map_cons, ihm, List.length_range']
        have h1 : (z + 2 - layer).toNat = (z + 2 - (layer + 1)).toNat + 1 := by omega
        have h2 : (layer + 1).toNat = layer.toNat + 1 := by omega
        rw [h1, h2, List.range'_succ]
        have h3' : res.length + 1 = layer.toNat := by omega
        rw [h3']
        simp
      · rw [List.flatten_cons, List.map_cons, List.sum_cons, ihf, List.length_range']
        have happ := List.range'_append next (res.length + 1)
          (((generate_layers_go z f (List.range' next (res.length + 1)) (layer + 1)
            (next + (res.length + 1))).map List.length).sum) 1
        simp only [Nat.one_mul, Nat.mul_one] at happ
        rw [happ, Nat.add_comm]
/-- `generate_layers` for sizes `≥ 2`: layer lengths are
`2, 3, …, size+1, size` and the cells, read layer by layer, are the
consecutive ids `0, 1, 2, …`. -/
theorem generate_layers_spec (z : Int) (hz : 2 ≤ z) :
    (generate_layers z).map List.length =
        2 :: (List.range' 3 (z - 1).toNat ++ [z.toNat]) ∧
      (generate_layers z).flatten =
        List.range (((generate_layers z).map List.length).sum) := by
  have hz0 : z ≥ 0 := by omega
  unfold generate_layers
  simp only [if_pos hz0]
  obtain ⟨hm, hf⟩ := generate_layers_go_spec z hz (z + 3).toNat 3 [0, 1] 2
    (by omega) (by omega) (by omega) (by simp)
  have h1 : (z + 2 - 3).toNat = (z - 1).toNat := by omega
  have h2 : (3 : Int).toNat = 3 := rfl
  rw [h1, h2] at hm
  constructor
  · rw [List.map_cons, hm]
    rfl
  · rw [List.flatten_cons, hf, List.map_cons, List.sum_cons]
    have happ := List.range'_append 0 2
      (((generate_layers_go z (z + 3).toNat [0, 1] 3 2).map List.length).sum) 1
    simp only [Nat.one_mul, Nat.mul_one] at happ
    have h01 : (0 : Nat) + 2 = 2 := rfl
    rw [h01] at happ
    have hlist : ([0, 1] : List Nat) = List.range' 0 2 := rfl
    rw [← hlist] at happ
    rw [happ, List.range_eq_range']
    congr 1
    simp [Nat.add_comm]

/-- Python `max` of a nonempty list via `foldl`: the accumulator absorbs
an ascending run. -/
theorem foldl_max_range' (k : Nat) :
    ∀ (s a : Nat), List.foldl max a (List.range' s k) =
      if k = 0 then a else max a (s + k - 1) := by
  induction k with
  | zero =>
    intro s a
    rfl
  | succ n ih =>
    intro s a
    rw [List.range'_succ, List.foldl_cons, ih]
    by_cases hn : n = 0
    · subst hn
      simp
    · rw [if_neg hn, if_neg (Nat.succ_ne_zero n)]
      rw [Nat.max_assoc]
      congr 1
      omega

theorem pyMaxNat_front (z : Int) (hz : 2 ≤ z) :
    pyMaxNat (2 :: List.range' 3 (z - 1).toNat) = some (z.toNat + 1) := by
  rw [show pyMaxNat (2 :: List.range' 3 (z - 1).toNat) =
    some (List.foldl max 2 (List.range' 3 (z - 1).toNat)) from rfl]
  rw [foldl_max_range']
  rw [if_neg (by omega : ¬(z - 1).toNat = 0)]
  congr 1
  omega
/-- Each emitted column of `top_to_line_go` is nonempty and consists of
elements of the input sublists. -/
theorem top_to_line_go_mem (a : List (List Nat)) :
    ∀ gas index, ∀ line ∈ top_to_line_go a gas index,
      line ≠ [] ∧ ∀ c ∈ line, ∃ x ∈ a, c ∈ x := by
  intro gas
  induction gas with
  | zero =>
    intro index line h
    cases h
  | succ g ih =>
    intro index line h
    simp only [top_to_line_go] at h
    rw [List.mem_append] at h
    rcases h with h | h
    · by_cases hk : a.filterMap (fun x => x[index]?) = []
      · rw [if_pos hk] at h
        cases h
      · rw [if_neg hk] at h
        rcases List.mem_singleton.mp h with rfl
        refine ⟨hk, ?_⟩
        intro c hc
        obtain ⟨x, hx, hxc⟩ := List.mem_filterMap.mp hc
        exact ⟨x, hx, List.getElem?_mem hxc⟩
    · exact ih (index + 1) line h

/-- The number of columns `top_to_line_go` emits, when `W` is the exact
maximum sublist length. -/
theorem top_to_line_go_length (a : List (List Nat)) (W : Nat)
    (hub : ∀ x ∈ a, x.length ≤ W) (hex : ∃ x ∈ a, x.length = W) :
    ∀ gas index, (top_to_line_go a gas index).length = min gas (W - index) := by
  intro gas
  induction gas with
  | zero =>
    intro index
    rw [show top_to_line_go a 0 index = [] from rfl]
    simp
  | succ g ih =>
    intro index
    simp only [top_to_line_go]
    rw [List.length_append, ih (index + 1)]
    by_cases hidx : index < W
    · obtain ⟨x, hx, hxW⟩ := hex
      have hne : a.filterMap (fun y => y[index]?) ≠ [] := by
        intro hnil
        rw [List.filterMap_eq_nil_iff] at hnil
        have h2 := hnil x hx
        rw [List.getElem?_eq_getElem (by omega : index < x.length)] at h2
        cases h2
      rw [if_neg hne]
      simp only [List.length_singleton]
      omega
    · have hnil : a.filterMap (fun y => y[index]?) = [] := by
        rw [List.filterMap_eq_nil_iff]
        intro x hx
        exact List.getElem?_eq_none (by have := hub x hx; omega)
      rw [if_pos hnil]
      simp only [List.length_nil]
      omega

theorem top_to_line_length (a : List (List Nat)) (W : Nat)
    (hub : ∀ x ∈ a, x.length ≤ W) (hex : ∃ x ∈ a, x.length = W) :
    (top_to_line a W).length = W := by
  unfold top_to_line
  rw [top_to_line_go_length a W hub hex (W + 1) 0]
  omega

/-- `mapM` over `Option` succeeds when every element does, preserving
length, and every output comes from some input. -/
theorem mapM_option_spec {α β : Type} (f : α → Option β) :
    ∀ (l : List α), (∀ x ∈ l, (f x).isSome = true) →
      ∃ r, l.mapM f = some r ∧ r.length = l.length ∧
        ∀ y ∈ r, ∃ x ∈ l, f x = some y := by
  intro l
  induction l with
  | nil =>
    intro _
    exact ⟨[], rfl, rfl, by simp⟩
  | cons x xs ih =>
    intro h
    obtain ⟨y, hy⟩ := Option.isSome_iff_exists.mp (h x (List.mem_cons_self x xs))
    obtain ⟨r, hr, hrl, hrm⟩ := ih (fun w hw => h w (List.mem_cons_of_mem x hw))
    refine ⟨y :: r, ?_, by simp [hrl], ?_⟩
    · rw [List.mapM_cons, hy, hr]
      rfl
    · intro w hw
      rcases List.mem_cons.mp hw with rfl | hw2
      · exact ⟨x, List.mem_cons_self x xs, hy⟩
      · obtain ⟨x2, hx2, hfx2⟩ := hrm w hw2
        exact ⟨x2, List.mem_cons_of_mem x hx2, hfx2⟩
/-- For sizes `≥ 2`: the last layer has `size` cells, and the remaining
layers have lengths `2, 3, …, size+1`. -/
theorem content_facts (z : Int) (hz : 2 ≤ z) :
    ∃ last, (generate_layers z).getLast? = some last ∧ last.length = z.toNat ∧
      (generate_layers z).dropLast.map List.length = 2 :: List.range' 3 (z - 1).toNat := by
  obtain ⟨hm, _⟩ := generate_layers_spec z hz
  have hm2 : (generate_layers z).map List.length =
      (2 :: List.range' 3 (z - 1).toNat) ++ [z.toNat] := by
    rw [hm]
    simp
  have hlast : ((generate_layers z).map List.length).getLast? = some z.toNat := by
    rw [hm2]
    exact List.getLast?_concat _
  rw [List.getLast?_map] at hlast
  obtain ⟨last, hl, hll⟩ := Option.map_eq_some'.mp hlast
  refine ⟨last, hl, hll, ?_⟩
  rw [List.map_dropLast, hm2, List.dropLast_concat]

/-- For sizes `≥ 2`, the upward `adjoin` succeeds and yields `size + 1`
nonempty lines whose cells are board cells. -/
theorem adjoin_u_spec (z : Int) (hz : 2 ≤ z) :
    ∃ u, adjoin z (generate_layers z) (Char.ofNat 117) = some u ∧
      u.length = z.toNat + 1 ∧
      ∀ line ∈ u, line ≠ [] ∧ ∀ c ∈ line, c ∈ (generate_layers z).flatten := by
  obtain ⟨last, hlast, hlastlen, hfront⟩ := content_facts z hz
  have hW : ∀ x ∈ (generate_layers z).dropLast, x.length ≤ z.toNat + 1 := by
    intro x hx
    have hmem : x.length ∈ (generate_layers z).dropLast.map List.length :=
      List.mem_map.mpr ⟨x, hx, rfl⟩
    rw [hfront] at hmem
    rcases List.mem_cons.mp hmem with h2 | h2
    · omega
    · have := List.mem_range'_1.mp h2
      omega
  have hWex : ∃ x ∈ (generate_layers z).dropLast, x.length = z.toNat + 1 := by
    have hmem : z.toNat + 1 ∈ (generate_layers z).dropLast.map List.length := by
      rw [hfront]
      refine List.mem_cons_of_mem _ (List.mem_range'_1.mpr ⟨by omega, by omega⟩)
    obtain ⟨x, hx, hxl⟩ := List.mem_map.mp hmem
    exact ⟨x, hx, hxl⟩
  have hmax : pyMaxNat ((generate_layers z).dropLast.map List.length) =
      some (z.toNat + 1) := by
    rw [hfront]
    exact pyMaxNat_front z hz
  have hres1len : (top_to_line (generate_layers z).dropLast (z.toNat + 1)).length =
      z.toNat + 1 := top_to_line_length _ _ hW hWex
  have hloop : ∀ p ∈ (top_to_line (generate_layers z).dropLast (z.toNat + 1)).enum,
      ((fun p : Nat × List Nat =>
        if 1 ≤ p.1 then do
          let c ← last[p.1 - 1]?
          pure (p.2 ++ [c])
        else pure p.2) p).isSome = true := by
    intro p hp
    by_cases h1 : 1 ≤ p.1
    · have hlt := List.fst_lt_of_mem_enum hp
      rw [hres1len] at hlt
      simp only [if_pos h1]
      rw [List.getElem?_eq_getElem (by omega : p.1 - 1 < last.length)]
      rfl
    · simp only [if_neg h1]
      rfl
  obtain ⟨u, hu, hulen, humem⟩ := mapM_option_spec _ _ hloop
  refine ⟨u, ?_, ?_, ?_⟩
  · simp only [adjoin]
    rw [if_neg (by omega : ¬z = 0), if_pos ⟨trivial, by omega⟩]
    simp only [hmax, hlast, Option.bind_eq_bind, Option.some_bind]
    exact hu
  · rw [hulen, List.enum_length, hres1len]
  · intro line hline
    obtain ⟨p, hp, hfp⟩ := humem line hline
    have hpl : p.2 ∈ top_to_line (generate_layers z).dropLast (z.toNat + 1) := by
      have := List.mem_enum_iff_getElem?.mp hp
      exact List.getElem?_mem this
    obtain ⟨hne, hmem2⟩ := top_to_line_go_mem _ _ _ _ hpl
    by_cases h1 : 1 ≤ p.1
    · simp only [if_pos h1] at hfp
      cases hc : last[p.1 - 1]? with
      | none =>
        rw [hc] at hfp
        cases hfp
      | some c =>
        rw [hc] at hfp
        cases hfp
        constructor
        · simp
        · intro d hd
          rcases List.mem_append.mp hd with hd2 | hd2
          · obtain ⟨x, hx, hdx⟩ := hmem2 d hd2
            exact List.mem_flatten.mpr ⟨x, (List.dropLast_sublist _).mem hx, hdx⟩
          · rcases List.mem_singleton.mp hd2 with rfl
            exact List.mem_flatten.mpr ⟨last, List.mem_of_mem_getLast? hlast,
              List.getElem?_mem hc⟩
    · simp only [if_neg h1] at hfp
      cases hfp
      exact ⟨hne, fun d hd => by
        obtain ⟨x, hx, hdx⟩ := hmem2 d hd
        exact List.mem_flatten.mpr ⟨x, (List.dropLast_sublist _).mem hx, hdx⟩⟩
/-- `max_len_list` returns a valid index on a nonempty list. -/
theorem max_len_list_lt (n : List (List Nat)) (hn : n ≠ []) : max_len_list n < n.length := by
  unfold max_len_list
  have key : ∀ (l : List (Nat × List Nat)) (acc : Nat × Int), acc.1 < n.length →
      (∀ p ∈ l, p.1 < n.length) →
      ((l.foldl (fun (acc : Nat × Int) (p : Nat × List Nat) =>
        if (p.2.length : Int) > acc.2 then (p.1, (p.2.length : Int)) else acc) acc).1 <
        n.length) := by
    intro l
    induction l with
    | nil =>
      intro acc h _
      exact h
    | cons q rest ih =>
      intro acc h hl
      rw [List.foldl_cons]
      refine ih _ ?_ (fun p hp => hl p (List.mem_cons_of_mem q hp))
      by_cases hq : ((q.2.length : Int) > acc.2)
      · rw [if_pos hq]
        exact hl q (List.mem_cons_self q rest)
      · rw [if_neg hq]
        exact h
  exact key n.enum (0, -1) (by simpa using List.length_pos.mpr hn)
    (fun p hp => List.fst_lt_of_mem_enum hp)

/-- The extraction loop of `adjoin`'s downward branch succeeds when run
for at most the length of its list, and only returns sublists of it. -/
theorem extractByLen_spec :
    ∀ (cnt : Nat) (n : List (List Nat)), cnt ≤ n.length →
      ∃ j, extractByLen n cnt = some j ∧ ∀ s ∈ j, s ∈ n := by
  intro cnt
  induction cnt with
  | zero =>
    intro n _
    exact ⟨[], rfl, by simp⟩
  | succ c ih =>
    intro n hc
    have hne : n ≠ [] := by
      intro h
      subst h
      simp at hc
    have ht := max_len_list_lt n hne
    obtain ⟨j, hj, hjm⟩ := ih (n.eraseIdx (max_len_list n))
      (by rw [List.length_eraseIdx, if_pos ht]; omega)
    refine ⟨n[max_len_list n] :: j, ?_, ?_⟩
    · simp only [extractByLen]
      rw [List.getElem?_eq_getElem ht]
      simp only [Option.bind_eq_bind, Option.some_bind, hj]
      rfl
    · intro s hs
      rcases List.mem_cons.mp hs with rfl | hs2
      · exact List.getElem_mem ht
      · exact (List.eraseIdx_sublist n (max_len_list n)).mem (hjm s hs2)

theorem distributeD_length (res1 j : List (List Nat)) :
    (distributeD res1 j).length = res1.length := by
  unfold distributeD
  rw [List.length_map, List.enum_length]

/-- The distribution loop only appends cells taken from the lists of `j`
and keeps every line nonempty. -/
theorem distributeD_mem (res1 j : List (List Nat)) (P : Nat → Prop)
    (h1 : ∀ line ∈ res1, line ≠ [] ∧ ∀ c ∈ line, P c)
    (h2 : ∀ s ∈ j, ∀ c ∈ s, P c) :
    ∀ line ∈ distributeD res1 j, line ≠ [] ∧ ∀ c ∈ line, P c := by
  intro line hline
  unfold distributeD at hline
  obtain ⟨p, hp, hfp⟩ := List.mem_map.mp hline
  have hp2 := List.snd_mem_of_mem_enum hp
  obtain ⟨hne, hmem⟩ := h1 p.2 hp2
  by_cases h1i : 1 ≤ p.1
  · rw [if_pos h1i] at hfp
    subst hfp
    refine ⟨by simp [hne], ?_⟩
    intro c hc
    rcases List.mem_append.mp hc with hc2 | hc2
    · exact hmem c hc2
    · obtain ⟨s, hs, hsc⟩ := List.mem_filterMap.mp hc2
      by_cases hg : res1.length - p.1 ≤ s.length
      · rw [if_pos hg] at hsc
        exact h2 s hs c (List.getElem?_mem hsc)
      · rw [if_neg hg] at hsc
        cases hsc
  · rw [if_neg h1i] at hfp
    subst hfp
    exact ⟨hne, hmem⟩
/-- For sizes `≥ 2` the two rearmost layers, reversed, have lengths
`size` and `size + 1`. -/
theorem rev2_lens (z : Int) (hz : 2 ≤ z) :
    ((generate_layers z).reverse.take 2).map List.length = [z.toNat, z.toNat + 1] := by
  obtain ⟨hm, _⟩ := generate_layers_spec z hz
  have h1 : ((generate_layers z).reverse.take 2).map List.length =
      (((generate_layers z).map List.length).reverse).take 2 := by
    rw [List.map_take, List.map_reverse]
  rw [h1, hm]
  have hk : (z - 1).toNat = ((z - 1).toNat - 1) + 1 := by omega
  rw [hk, List.range'_1_concat]
  have h3 : 3 + ((z - 1).toNat - 1) = z.toNat + 1 := by omega
  simp only [List.reverse_cons, List.reverse_append, List.reverse_singleton,
    List.singleton_append, List.cons_append, List.append_assoc, List.nil_append, h3,
    List.reverse_nil]
  rfl

/-- For sizes `≥ 2`, the downward `adjoin` succeeds and yields `size + 1`
nonempty lines whose cells are board cells. -/
theorem adjoin_d_spec (z : Int) (hz : 2 ≤ z) :
    ∃ d, adjoin z (generate_layers z) (Char.ofNat 100) = some d ∧
      d.length = z.toNat + 1 ∧
      ∀ line ∈ d, line ≠ [] ∧ ∀ c ∈ line, c ∈ (generate_layers z).flatten := by
  have hrev := rev2_lens z hz
  have hub : ∀ x ∈ (generate_layers z).reverse.take 2, x.length ≤ z.toNat + 1 := by
    intro x hx
    have hmem : x.length ∈ ((generate_layers z).reverse.take 2).map List.length :=
      List.mem_map.mpr ⟨x, hx, rfl⟩
    rw [hrev] at hmem
    rcases List.mem_cons.mp hmem with h2 | h2
    · omega
    · rcases List.mem_singleton.mp (by simpa using h2) with h3
      omega
  have hex : ∃ x ∈ (generate_layers z).reverse.take 2, x.length = z.toNat + 1 := by
    have hmem : z.toNat + 1 ∈ ((generate_layers z).reverse.take 2).map List.length := by
      rw [hrev]
      simp
    obtain ⟨x, hx, hxl⟩ := List.mem_map.mp hmem
    exact ⟨x, hx, hxl⟩
  have hmax : pyMaxNat (((generate_layers z).reverse.take 2).map List.length) =
      some (z.toNat + 1) := by
    rw [hrev]
    rw [show pyMaxNat [z.toNat, z.toNat + 1] =
      some (List.foldl max z.toNat [z.toNat + 1]) from rfl]
    simp only [List.foldl_cons, List.foldl_nil]
    rw [Nat.max_eq_right (by omega)]
  have hres1len : (top_to_line ((generate_layers z).reverse.take 2) (z.toNat + 1)).length =
      z.toNat + 1 := top_to_line_length _ _ hub hex
  obtain ⟨j, hj, hjm⟩ := extractByLen_spec
    ((generate_layers z).dropLast.dropLast).length ((generate_layers z).dropLast.dropLast)
    (Nat.le_refl _)
  refine ⟨distributeD (top_to_line ((generate_layers z).reverse.take 2) (z.toNat + 1)) j,
    ?_, ?_, ?_⟩
  · simp only [adjoin]
    rw [if_neg (by omega : ¬z = 0)]
    rw [if_neg (by
      intro hcon
      have := hcon.1
      exact absurd this (by decide))]
    rw [if_pos ⟨trivial, by omega⟩]
    simp only [hmax, hj, Option.bind_eq_bind, Option.some_bind]
    rfl
  · rw [distributeD_length, hres1len]
  · refine distributeD_mem _ _ _ ?_ ?_
    · intro line hline
      obtain ⟨hne, hmem⟩ := top_to_line_go_mem _ _ _ _ hline
      refine ⟨hne, ?_⟩
      intro c hc
      obtain ⟨x, hx, hcx⟩ := hmem c hc
      have hx2 : x ∈ (generate_layers z).reverse := List.mem_of_mem_take hx
      rw [List.mem_reverse] at hx2
      exact List.mem_flatten.mpr ⟨x, hx2, hcx⟩
    · intro s hs c hc
      have hs2 : s ∈ (generate_layers z).dropLast.dropLast := hjm s hs
      have hs3 : s ∈ generate_layers z :=
        (List.dropLast_sublist _).mem ((List.dropLast_sublist _).mem hs2)
      exact List.mem_flatten.mpr ⟨s, hs3, hc⟩
/-- `name_layers` over consecutively numbered cells: one registry entry
per id, in order. -/
theorem name_layers_range (N : Nat) :
    (List.range N).enum.map (fun p => (labelOf p.1, p.2)) =
      (List.range N).map (fun i => (labelOf i, i)) := by
  apply List.ext_getElem?
  intro n
  rw [List.getElem?_map, List.getElem?_enum, List.getElem?_map]
  by_cases hn : n < N
  · rw [List.getElem?_range hn]
    rfl
  · rw [List.getElem?_eq_none (by rw [List.length_range]; omega)]
    rfl

/-- Construction of a board of any size `≥ 0` succeeds and establishes
the structural well-formedness `BoardWF`, a clear winner flag, unowned
ley-lines, and label-valued (unmarked) cells. -/
theorem boardInit_struct (z : Int) (hz : 0 ≤ z) :
    ∃ b, boardInit z = some b ∧ BoardWF b ∧ b.data1 = none ∧
      (∀ line ∈ allLines b, line.taken = none) ∧
      b.vals = (List.range b.vals.length).map (fun k => CellVal.str (labelOf k)) := by
  by_cases h0 : z = 0
  · subst h0
    refine ⟨(boardInit 0).getD dummyBoard, by decide,
      ⟨by decide, by decide, by decide, by decide, by decide, by decide⟩,
      by decide, by decide, by decide⟩
  by_cases h1 : z = 1
  · subst h1
    refine ⟨(boardInit 1).getD dummyBoard, by decide,
      ⟨by decide, by decide, by decide, by decide, by decide, by decide⟩,
      by decide, by decide, by decide⟩
  have hz2 : 2 ≤ z := by omega
  obtain ⟨u, hu, hulen, humem⟩ := adjoin_u_spec z hz2
  obtain ⟨d, hd, hdlen, hdmem⟩ := adjoin_d_spec z hz2
  obtain ⟨hm, hflat⟩ := generate_layers_spec z hz2
  have hb : boardInit z = some
      { data0 := z
        data1 := none
        moves_history := []
        node_reference := name_layers (generate_layers z)
        vals := named_vals (generate_layers z)
        content := generate_layers z
        upw_leys := generate_leys u
        downw_leys := generate_leys d
        horiz_leys := generate_leys (generate_layers z) } := by
    simp only [boardInit, hu, hd, Option.bind_eq_bind, Option.some_bind]
    rfl
  set TN := ((generate_layers z).map List.length).sum with hTN
  have hflatlen : (generate_layers z).flatten.length = TN := by
    rw [hflat, List.length_range]
  have hvlen : (named_vals (generate_layers z)).length = TN := by
    unfold named_vals
    rw [List.length_map, List.length_range, hflatlen]
  have hcellmem : ∀ c ∈ (generate_layers z).flatten, c < TN := by
    intro c hc
    rw [hflat, List.mem_range] at hc
    exact hc
  have hlayer_ne : ∀ x ∈ generate_layers z, x ≠ [] := by
    intro x hx
    have hmem : x.length ∈ (generate_layers z).map List.length :=
      List.mem_map.mpr ⟨x, hx, rfl⟩
    rw [hm] at hmem
    have hpos : 1 ≤ x.length := by
      rcases List.mem_cons.mp hmem with h2 | h2
      · omega
      · rcases List.mem_append.mp h2 with h3 | h3
        · have := List.mem_range'_1.mp h3
          omega
        · have h4 := List.mem_singleton.mp h3
          omega
    intro hnil
    rw [hnil] at hpos
    simp at hpos
  have hline_fam : ∀ line ∈ allLines
      { data0 := z
        data1 := none
        moves_history := []
        node_reference := name_layers (generate_layers z)
        vals := named_vals (generate_layers z)
        content := generate_layers z
        upw_leys := generate_leys u
        downw_leys := generate_leys d
        horiz_leys := generate_leys (generate_layers z) : Board },
      line.taken = none ∧ line.cells ≠ [] ∧ ∀ c ∈ line.cells, c < TN := by
    intro line hline
    simp only [allLines] at hline
    have hcases : line ∈ generate_leys u ∨ line ∈ generate_leys d ∨
        line ∈ generate_leys (generate_layers z) := by
      rcases List.mem_append.mp hline with h2 | h2
      · rcases List.mem_append.mp h2 with h3 | h3
        · exact Or.inl h3
        · exact Or.inr (Or.inl h3)
      · exact Or.inr (Or.inr h2)
    rcases hcases with h2 | h2 | h2
    · obtain ⟨x, hx, rfl⟩ := List.mem_map.mp h2
      exact ⟨rfl, (humem x hx).1, fun c hc => hcellmem c ((humem x hx).2 c hc)⟩
    · obtain ⟨x, hx, rfl⟩ := List.mem_map.mp h2
      exact ⟨rfl, (hdmem x hx).1, fun c hc => hcellmem c ((hdmem x hx).2 c hc)⟩
    · obtain ⟨x, hx, rfl⟩ := List.mem_map.mp h2
      exact ⟨rfl, hlayer_ne x hx,
        fun c hc => hcellmem c (List.mem_flatten.mpr ⟨x, hx, hc⟩)⟩
  refine ⟨_, hb, ⟨?_, ?_, ?_, ?_, ?_, ?_⟩, rfl, ?_, ?_⟩
  · -- reg
    show name_layers (generate_layers z) = _
    unfold name_layers
    rw [hvlen, hflat, name_layers_range]
  · -- horiz_len
    show (generate_leys (generate_layers z)).length = (generate_layers z).length
    exact List.length_map _ _
  · -- ud
    show (generate_leys u).length = (generate_leys d).length
    unfold generate_leys
    rw [List.length_map, List.length_map, hulen, hdlen]
  · -- content_ne
    show 1 ≤ (generate_layers z).length
    unfold generate_layers
    simp
  · -- lines_ne
    intro line hline
    exact (hline_fam line hline).2.1
  · -- lines_mem
    intro line hline c hc
    show c < (named_vals (generate_layers z)).length
    rw [hvlen]
    exact (hline_fam line hline).2.2 c hc
  · -- all lines unowned
    intro line hline
    exact (hline_fam line hline).1
  · -- vals formula
    show named_vals (generate_layers z) = _
    rw [hvlen]
    unfold named_vals
    rw [hflatlen]
/-- C8: board construction succeeds for every size `≥ 0`; with a negative
size the `adjoin` helper falls through all of its branches and returns
Python `None`, which makes `generate_leys` raise inside `__init__`, so no
board object is ever produced (`boardInit` is `none`). -/
theorem claim_C8 (z : Int) :
    (0 ≤ z → (boardInit z).isSome = true) ∧ (z < 0 → boardInit z = none) := by
  constructor
  · intro hz
    obtain ⟨b, hb, _⟩ := boardInit_struct z hz
    rw [hb]
    rfl
  · intro hz
    have hu : adjoin z (generate_layers z) (Char.ofNat 117) = none := by
      unfold adjoin
      rw [if_neg (by omega : ¬z = 0)]
      rw [if_neg (fun h => absurd h.2 (by omega))]
      rw [if_neg (fun (h : Char.ofNat 117 = Char.ofNat 100 ∧ z ≥ 1) =>
        absurd h.1 (by decide))]
    simp only [boardInit, hu, Option.bind_eq_bind, Option.none_bind]

/-- Witness for `claim_C8`: size 0 constructs, size -1 is rejected. -/
theorem claim_C8_witness : (boardInit 0).isSome = true ∧ boardInit (-1) = none :=
  ⟨(claim_C8 0).1 (by decide), (claim_C8 (-1)).2 (by decide)⟩
theorem alphabet_getD_len : ∀ m, m < 26 → (alphabet.getD m "").data.length = 1 := by
  decide

theorem alphabet_getD_inj :
    ∀ m1, m1 < 26 → ∀ m2, m2 < 26 →
      alphabet.getD m1 "" = alphabet.getD m2 "" → m1 = m2 := by
  decide

/-- The cell labels are pairwise distinct. -/
theorem labelOf_inj (k1 k2 : Nat) (h : labelOf k1 = labelOf k2) : k1 = k2 := by
  unfold labelOf at h
  have hdata := congrArg String.data h
  rw [String.data_append, String.data_append] at hdata
  have hm1 : k1 % 26 < 26 := Nat.mod_lt _ (by omega)
  have hm2 : k2 % 26 < 26 := Nat.mod_lt _ (by omega)
  obtain ⟨hpre, hsuf⟩ := List.append_inj hdata
    (by rw [alphabet_getD_len _ hm1, alphabet_getD_len _ hm2])
  have hdiv : k1 / 26 = k2 / 26 := by
    have := congrArg List.length hsuf
    simpa using this
  have hmod : k1 % 26 = k2 % 26 :=
    alphabet_getD_inj _ hm1 _ hm2 (String.ext hpre)
  omega

/-- On a well-formed board the label of cell `i` looks up to `i`. -/
theorem lookupNode_label (b : Board) (hWF : BoardWF b) (i : Nat) (hi : i < b.vals.length) :
    lookupNode b (labelOf i) = some i := by
  unfold lookupNode
  rw [hWF.reg]
  have hfind : ∀ (l : List Nat), i ∈ l →
      (List.find? (fun kv => kv.1 = labelOf i) (l.map (fun j => (labelOf j, j)))) =
        some (labelOf i, i) := by
    intro l
    induction l with
    | nil =>
      intro hmem
      cases hmem
    | cons a rest ih =>
      intro hmem
      rw [List.map_cons, List.find?_cons]
      by_cases ha : a = i
      · subst ha
        simp
      · have hd : (decide ((labelOf a, a).1 = labelOf i)) = false := by
          simp only [decide_eq_false_iff_not]
          intro hcon
          exact ha (labelOf_inj a i hcon)
        rw [hd]
        refine ih ?_
        rcases List.mem_cons.mp hmem with rfl | h2
        · exact absurd rfl ha
        · exact h2
  rw [hfind (List.range b.vals.length) (List.mem_range.mpr hi)]
  rfl
theorem cellVal_set_ne (vals : List CellVal) (i : Nat) (v : CellVal) (c : Nat) (h : c ≠ i) :
    cellVal (vals.set i v) c = cellVal vals c := by
  unfold cellVal
  rw [List.getD_eq_getElem?_getD, List.getD_eq_getElem?_getD,
    List.getElem?_set_ne (fun he => h he.symm)]

theorem cellVal_set_self (vals : List CellVal) (i : Nat) (v : CellVal)
    (h : i < vals.length) : cellVal (vals.set i v) i = v := by
  unfold cellVal
  rw [List.getD_eq_getElem?_getD, List.getElem?_set_self h]
  rfl

/-- What `calculate_positions` does to an unowned line: player 2's test
runs second, so its assignment wins when both thresholds are met. -/
theorem calc_taken_of_none (v : List CellVal) (line : LeyLine) (h : line.taken = none) :
    (calculate_positions v line).taken =
      if halfLe line.cells.length (lineCount v line Player.p2) = true then some Player.p2
      else if halfLe line.cells.length (lineCount v line Player.p1) = true then some Player.p1
      else none := by
  simp [calculate_positions, lineCount, h]

/-- The player's mark written by `occupy_node`. -/
theorem markedVal_mark (p : Player) :
    markedVal (CellVal.int (if p = Player.p1 then 1 else 2)) = true := by
  cases p <;> decide

/-- Marking an unmarked cell for `p` leaves the other player's count in
every line unchanged. -/
theorem lineCount_set_other (v : List CellVal) (i : Nat) (p : Player) (line : LeyLine)
    (q : Player) (hiv : ¬ markedVal (cellVal v i) = true) (hq : q ≠ p) :
    lineCount (v.set i (CellVal.int (if p = Player.p1 then 1 else 2))) line q =
      lineCount v line q := by
  unfold lineCount
  apply List.countP_congr
  intro c _
  by_cases hci : c = i
  · subst hci
    simp only [markedVal, decide_eq_true_iff, not_or] at hiv
    have hnew : cellVal (v.set c (CellVal.int (if p = Player.p1 then 1 else 2))) c ≠
        CellVal.int (if q = Player.p1 then 1 else 2) := by
      by_cases hcl : c < v.length
      · rw [cellVal_set_self v c _ hcl]
        cases p <;> cases q <;> simp_all
      · rw [show v.set c (CellVal.int (if p = Player.p1 then 1 else 2)) = v from
          List.set_eq_of_length_le (by omega)]
        cases q <;> simp_all
    have hold : cellVal v c ≠ CellVal.int (if q = Player.p1 then 1 else 2) := by
      cases q <;> simp_all
    simp [hnew, hold]
  · rw [cellVal_set_ne v i _ c hci]

/-- Marking a cell never decreases a player's count in any line. -/
theorem lineCount_set_mono (v : List CellVal) (i : Nat) (p : Player) (line : LeyLine)
    (q : Player) (hiv : ¬ markedVal (cellVal v i) = true) :
    lineCount v line q ≤
      lineCount (v.set i (CellVal.int (if p = Player.p1 then 1 else 2))) line q := by
  unfold lineCount
  apply List.countP_mono_left
  intro c _ hc
  rw [decide_eq_true_iff] at hc
  have hci : c ≠ i := by
    intro he
    subst he
    simp only [markedVal, decide_eq_true_iff, not_or] at hiv
    cases q <;> simp_all
  rw [decide_eq_true_iff, cellVal_set_ne v i _ c hci]
  exact hc

theorem halfLe_mono (n c c2 : Nat) (h : halfLe n c = true) (hc : c ≤ c2) :
    halfLe n c2 = true := by
  unfold halfLe at h ⊢
  rw [decide_eq_true_iff] at h ⊢
  omega

/-- A pointwise-dominated predicate with a strict witness counts
strictly less. -/
theorem countP_lt_of_witness {α : Type} (l : List α) (f g : α → Bool)
    (hmono : ∀ x ∈ l, f x = true → g x = true) (x0 : α) (hx0 : x0 ∈ l)
    (hf : f x0 = false) (hg : g x0 = true) : l.countP f < l.countP g := by
  induction l with
  | nil => cases hx0
  | cons a rest ih =>
    rw [List.countP_cons, List.countP_cons]
    have hmr : ∀ x ∈ rest, f x = true → g x = true :=
      fun x hx => hmono x (List.mem_cons_of_mem a hx)
    rcases List.mem_cons.mp hx0 with rfl | hmem
    · rw [hf, hg]
      have := List.countP_mono_left hmr
      simp
      omega
    · have hstrict := ih hmr hmem
      have hc : (if f a then 1 else 0) ≤ (if g a then 1 else 0) := by
        by_cases hfa : f a = true
        · rw [hfa, hmono a (List.mem_cons_self a rest) hfa]
        · rw [if_neg (by simp [hfa])]
          omega
      omega

/-- Two mutually exclusive and jointly exhaustive predicates count up to
the length. -/
theorem countP_pair_length {α : Type} (l : List α) (f g : α → Bool)
    (h : ∀ x ∈ l, (f x = true ∧ g x = false) ∨ (f x = false ∧ g x = true)) :
    l.countP f + l.countP g = l.length := by
  induction l with
  | nil => rfl
  | cons a rest ih =>
    rw [List.countP_cons, List.countP_cons, List.length_cons]
    have ihr := ih (fun x hx => h x (List.mem_cons_of_mem a hx))
    rcases h a (List.mem_cons_self a rest) with ⟨h1, h2⟩ | ⟨h1, h2⟩ <;>
      rw [h1, h2] <;>
      simp <;>
      omega
/-- A registry lookup lands inside the registry. -/
theorem lookupNode_mem (b : Board) (l : String) (i : Nat)
    (h : lookupNode b l = some i) : ∃ kv ∈ b.node_reference, kv.2 = i := by
  unfold lookupNode at h
  cases hf : List.find? (fun kv => kv.1 = l) b.node_reference with
  | none => rw [hf] at h; cases h
  | some kv =>
    rw [hf] at h
    exact ⟨kv, List.mem_of_find?_eq_some hf, by cases h; rfl⟩

/-- What membership in `possible_variations` gives: no winner yet, and a
registry id with an unmarked cell. -/
theorem legal_elim (b : Board) (hWF : BoardWF b) (l : String)
    (hleg : l ∈ possible_variations b) :
    b.data1 = none ∧ ∃ i, lookupNode b l = some i ∧ i < b.vals.length ∧
      ¬ markedVal (cellVal b.vals i) = true := by
  unfold possible_variations at hleg
  by_cases hgo : game_over b = true
  · rw [if_neg (by simp [hgo])] at hleg
    cases hleg
  · have hdata : b.data1 = none := by
      unfold game_over at hgo
      simpa using hgo
    rw [if_pos (by simp [hgo])] at hleg
    obtain ⟨kv, hkv, rfl⟩ := List.mem_map.mp hleg
    have hpred := (List.mem_filter.mp hkv).2
    rw [decide_eq_true_iff] at hpred
    unfold occupation_possible at hpred
    cases hlk : lookupNode b kv.1 with
    | none =>
      rw [hlk] at hpred
      cases hpred
    | some i =>
      rw [hlk] at hpred
      have hpred2 : (if cellVal b.vals i = CellVal.int 1 ∨ cellVal b.vals i = CellVal.int 2
          then (some false : Option Bool) else some true) = some true := hpred
      by_cases hm : cellVal b.vals i = CellVal.int 1 ∨ cellVal b.vals i = CellVal.int 2
      · rw [if_pos hm] at hpred2
        cases hpred2
      · refine ⟨hdata, i, rfl, ?_, ?_⟩
        · obtain ⟨kv2, hkv2, hkv2i⟩ := lookupNode_mem b kv.1 i hlk
          rw [hWF.reg] at hkv2
          obtain ⟨j, hj, hje⟩ := List.mem_map.mp hkv2
          rw [← hkv2i, ← hje]
          exact List.mem_range.mp hj
        · simp [markedVal, hm]

/-- The three re-evaluated families of `occupy_marked`, as one map over
all lines. -/
theorem allLines_occupy_marked (b1 : Board) (i : Nat) (p : Player) :
    allLines (occupy_marked b1 i p) =
      (allLines b1).map (calculate_positions ((occupy_marked b1 i p).vals)) := by
  unfold allLines occupy_marked
  simp [List.map_append]

theorem allLines_occupy_found (b1 : Board) (i : Nat) (p : Player) :
    allLines (occupy_found b1 i p) = allLines (occupy_marked b1 i p) := by
  unfold allLines
  rw [occupy_found_upw, occupy_found_downw, occupy_found_horiz]

theorem lineCount_cells_congr (v : List CellVal) (line1 line2 : LeyLine) (q : Player)
    (h : line1.cells = line2.cells) : lineCount v line1 q = lineCount v line2 q := by
  unfold lineCount
  rw [h]

/-- If re-evaluation produces an owner, either it was already there or
that player meets the threshold. -/
theorem calc_taken_some_of (v : List CellVal) (line : LeyLine) (q : Player)
    (h : (calculate_positions v line).taken = some q) :
    line.taken = some q ∨ halfLe line.cells.length (lineCount v line q) = true := by
  cases hts : line.taken with
  | some q2 =>
    have hcalc := calculate_positions_taken_some v line (by rw [hts]; exact Option.noConfusion)
    rw [hcalc, hts] at h
    exact Or.inl h
  | none =>
    rw [calc_taken_of_none v line hts] at h
    by_cases h2 : halfLe line.cells.length (lineCount v line Player.p2) = true
    · rw [if_pos h2] at h
      cases h
      exact Or.inr h2
    · rw [if_neg h2] at h
      by_cases h1 : halfLe line.cells.length (lineCount v line Player.p1) = true
      · rw [if_pos h1] at h
        cases h
        exact Or.inr h1
      · rw [if_neg h1] at h
        cases h
theorem total_leys_occupy_marked (b1 : Board) (i : Nat) (p : Player) :
    total_leys (occupy_marked b1 i p) = total_leys b1 := by
  unfold total_leys occupy_marked
  simp

/-- `winner` is the half-of-total comparison for the queried player. -/
theorem winner_eq_halfLe (b : Board) (q : Player) :
    winner b q = halfLe (total_leys b) (p_leys b q) := by
  cases q with
  | p1 =>
    unfold winner
    by_cases hh : halfLe (total_leys b) (p_leys b Player.p1) = true
    · rw [if_pos ⟨rfl, hh⟩, hh]
    · rw [if_neg (fun hc => hh hc.2)]
      rw [if_neg (fun hc => by cases hc.1)]
      rw [Bool.not_eq_true] at hh
      rw [hh]
  | p2 =>
    unfold winner
    rw [if_neg (fun hc => by cases hc.1)]
    by_cases hh : halfLe (total_leys b) (p_leys b Player.p2) = true
    · rw [if_pos ⟨rfl, hh⟩, hh]
    · rw [if_neg (fun hc => hh hc.2)]
      rw [Bool.not_eq_true] at hh
      rw [hh]

/-- One legal `occupy_node` step preserves well-formedness and the game
invariant, and strictly decreases the number of unmarked cells. -/
theorem occupy_legal_step (b : Board) (l : String) (p : Player)
    (hWF : BoardWF b) (hInv : GameInv b) (hleg : l ∈ possible_variations b) :
    ∃ b1, occupy_node b l p = Except.ok b1 ∧ BoardWF b1 ∧ GameInv b1 ∧
      unmarkedCount b1 < unmarkedCount b := by
  obtain ⟨hdata, i, hlk, hilt, hunm⟩ := legal_elim b hWF l hleg
  have hocc : occupy_node b l p =
      Except.ok (occupy_found { b with moves_history := b.moves_history ++ [(l, p)] } i p) := by
    unfold occupy_node
    have hlk2 : lookupNode { b with moves_history := b.moves_history ++ [(l, p)] } l =
        some i := hlk
    simp only [hlk2]
  set bh : Board := { b with moves_history := b.moves_history ++ [(l, p)] } with hbh
  set v2 : List CellVal := b.vals.set i (CellVal.int (if p = Player.p1 then 1 else 2))
    with hv2
  have hbm_vals : (occupy_marked bh i p).vals = v2 := rfl
  have hall_bh : allLines bh = allLines b := rfl
  have hv2len : v2.length = b.vals.length := List.length_set _ _ _
  -- per-line analysis over the old lines
  have hline : ∀ line ∈ allLines b,
      ((calculate_positions v2 line).taken ≠ none ↔
        (halfLe line.cells.length (lineCount v2 line Player.p1) = true ∨
          halfLe line.cells.length (lineCount v2 line Player.p2) = true)) ∧
      (∀ q : Player, q ≠ p →
        ((calculate_positions v2 line).taken = some q ↔ line.taken = some q)) := by
    intro line hmem
    constructor
    · cases hts : line.taken with
      | some q =>
        rw [calculate_positions_taken_some v2 line (by rw [hts]; exact Option.noConfusion)]
        rw [hts]
        have hold := (hInv.lines line hmem).mp (by rw [hts]; exact Option.noConfusion)
        have hnew : halfLe line.cells.length (lineCount v2 line Player.p1) = true ∨
            halfLe line.cells.length (lineCount v2 line Player.p2) = true := by
          rcases hold with h1 | h1
          · exact Or.inl (halfLe_mono _ _ _ h1 (lineCount_set_mono b.vals i p line Player.p1 hunm))
          · exact Or.inr (halfLe_mono _ _ _ h1 (lineCount_set_mono b.vals i p line Player.p2 hunm))
        simp [hnew]
      | none =>
        rw [calc_taken_of_none v2 line hts]
        by_cases h2 : halfLe line.cells.length (lineCount v2 line Player.p2) = true
        · rw [if_pos h2]
          simp [h2]
        · rw [if_neg h2]
          by_cases h1 : halfLe line.cells.length (lineCount v2 line Player.p1) = true
          · rw [if_pos h1]
            simp [h1]
          · rw [if_neg h1]
            simp [h1, h2]
    · intro q hq
      constructor
      · intro hsome
        rcases calc_taken_some_of v2 line q hsome with h2 | h2
        · exact h2
        · rw [lineCount_set_other b.vals i p line q hunm hq] at h2
          cases hts : line.taken with
          | some q2 =>
            have hid := calculate_positions_taken_some v2 line
              (by rw [hts]; exact Option.noConfusion)
            rw [hid, hts] at hsome
            exact hsome
          | none =>
            have hold := (hInv.lines line hmem)
            rw [hts] at hold
            have : ¬(halfLe line.cells.length (lineCount b.vals line Player.p1) = true ∨
                halfLe line.cells.length (lineCount b.vals line Player.p2) = true) := by
              intro hcon
              exact absurd (hold.mpr hcon) (by simp)
            cases q with
            | p1 => exact absurd (Or.inl h2) this
            | p2 => exact absurd (Or.inr h2) this
      · intro hsome
        rw [calculate_positions_taken_some v2 line (by rw [hsome]; exact Option.noConfusion)]
        exact hsome
  -- counts of the other player's lines are unchanged
  have hcount : ∀ (fam : List LeyLine), (∀ line ∈ fam, line ∈ allLines b) →
      ∀ q : Player, q ≠ p →
      countTaken (fam.map (calculate_positions v2)) q = countTaken fam q := by
    intro fam hfam q hq
    unfold countTaken
    rw [List.countP_map]
    apply List.countP_congr
    intro line2 hline2
    simp only [Function.comp_apply, decide_eq_true_iff]
    exact (hline line2 (hfam line2 hline2)).2 q hq
  have hfam_u : ∀ line ∈ b.upw_leys, line ∈ allLines b := by
    intro line h
    unfold allLines
    simp [h]
  have hfam_d : ∀ line ∈ b.downw_leys, line ∈ allLines b := by
    intro line h
    unfold allLines
    simp [h]
  have hfam_h : ∀ line ∈ b.horiz_leys, line ∈ allLines b := by
    intro line h
    unfold allLines
    simp [h]
  have hbm_data : (occupy_marked bh i p).data1 = none := hdata
  have hpleys : ∀ q : Player, q ≠ p → p_leys (occupy_marked bh i p) q = p_leys b q := by
    intro q hq
    unfold p_leys
    rw [show (occupy_marked bh i p).upw_leys = b.upw_leys.map (calculate_positions v2)
        from rfl,
      show (occupy_marked bh i p).downw_leys = b.downw_leys.map (calculate_positions v2)
        from rfl,
      show (occupy_marked bh i p).horiz_leys = b.horiz_leys.map (calculate_positions v2)
        from rfl,
      hcount _ hfam_u q hq, hcount _ hfam_d q hq, hcount _ hfam_h q hq]
  have htot : total_leys (occupy_marked bh i p) = total_leys b :=
    total_leys_occupy_marked bh i p
  have hwinner_other : ∀ q : Player, q ≠ p →
      winner (occupy_marked bh i p) q = winner b q := by
    intro q hq
    rw [winner_eq_halfLe, winner_eq_halfLe, htot, hpleys q hq]
  refine ⟨occupy_found bh i p, hocc, ?_, ?_, ?_⟩
  · -- BoardWF
    refine ⟨?_, ?_, ?_, ?_, ?_, ?_⟩
    · rw [occupy_found_node_reference, occupy_found_vals]
      rw [show bh.node_reference = b.node_reference from rfl, hbm_vals, hv2len]
      exact hWF.reg
    · rw [occupy_found_horiz, occupy_found_content]
      rw [show (occupy_marked bh i p).horiz_leys = b.horiz_leys.map (calculate_positions v2)
          from rfl, List.length_map]
      exact hWF.horiz_len
    · rw [occupy_found_upw, occupy_found_downw]
      rw [show (occupy_marked bh i p).upw_leys = b.upw_leys.map (calculate_positions v2)
          from rfl,
        show (occupy_marked bh i p).downw_leys = b.downw_leys.map (calculate_positions v2)
          from rfl, List.length_map, List.length_map]
      exact hWF.ud
    · rw [occupy_found_content]
      exact hWF.content_ne
    · intro line1 h1
      rw [allLines_occupy_found, allLines_occupy_marked, hall_bh] at h1
      obtain ⟨line, hline0, rfl⟩ := List.mem_map.mp h1
      rw [calculate_positions_cells]
      exact hWF.lines_ne line hline0
    · intro line1 h1 c hc
      rw [allLines_occupy_found, allLines_occupy_marked, hall_bh] at h1
      obtain ⟨line, hline0, rfl⟩ := List.mem_map.mp h1
      rw [calculate_positions_cells] at hc
      rw [occupy_found_vals, hbm_vals, hv2len]
      exact hWF.lines_mem line hline0 c hc
  · -- GameInv
    constructor
    · intro line1 h1
      rw [allLines_occupy_found, allLines_occupy_marked, hall_bh] at h1
      obtain ⟨line, hline0, rfl⟩ := List.mem_map.mp h1
      rw [occupy_found_vals, hbm_vals]
      rw [calculate_positions_cells,
        lineCount_cells_congr v2 _ line Player.p1 (calculate_positions_cells _ _),
        lineCount_cells_congr v2 _ line Player.p2 (calculate_positions_cells _ _)]
      exact (hline line hline0).1
    · intro hd1 q
      by_cases hw : winner (occupy_marked bh i p) p = true
      · exfalso
        have hsome : (occupy_found bh i p).data1 = some p := by
          unfold occupy_found
          rw [if_pos ⟨hw, hbm_data⟩]
        rw [hd1] at hsome
        cases hsome
      · have hb1 : occupy_found bh i p = occupy_marked bh i p := by
          unfold occupy_found
          rw [if_neg (fun hc => hw hc.1)]
        rw [hb1]
        by_cases hqp : q = p
        · subst hqp
          rw [Bool.not_eq_true] at hw
          exact hw
        · rw [hwinner_other q hqp]
          exact hInv.flag hdata q
  · -- measure
    unfold unmarkedCount
    rw [occupy_found_vals, hbm_vals, hv2len]
    apply countP_lt_of_witness (List.range b.vals.length) _ _ ?_ i
      (List.mem_range.mpr hilt) ?_ ?_
    · intro x _ hx
      by_cases hxi : x = i
      · subst hxi
        rw [cellVal_set_self b.vals x _ hilt] at hx
        rw [markedVal_mark] at hx
        cases hx
      · rw [cellVal_set_ne b.vals i _ x hxi] at hx
        exact hx
    · rw [cellVal_set_self b.vals i _ hilt, markedVal_mark]
      rfl
    · simp only [Bool.not_eq_true] at hunm
      rw [hunm]
      rfl
/-- A freshly constructed board satisfies the game invariant. -/
theorem boardInit_inv (z : Int) (hz : 0 ≤ z) :
    ∃ b, boardInit z = some b ∧ BoardWF b ∧ GameInv b := by
  obtain ⟨b, hb, hWF, hdata, hunowned, hvals⟩ := boardInit_struct z hz
  refine ⟨b, hb, hWF, ?_, ?_⟩
  · intro line hmem
    have hto : line.taken = none := hunowned line hmem
    have hcells := hWF.lines_ne line hmem
    have hcnt : ∀ q : Player, lineCount b.vals line q = 0 := by
      intro q
      unfold lineCount
      rw [List.countP_eq_zero]
      intro c hc
      have hclt := hWF.lines_mem line hmem c hc
      have hstr : cellVal b.vals c = CellVal.str (labelOf c) := by
        unfold cellVal
        conv_lhs => rw [hvals]
        rw [List.getD_eq_getElem?_getD, List.getElem?_map,
          List.getElem?_range hclt]
        rfl
      rw [decide_eq_true_iff, hstr]
      intro hcon
      cases hcon
    have hlen : 1 ≤ line.cells.length := by
      rcases Nat.eq_zero_or_pos line.cells.length with h0 | h0
      · exact absurd (List.length_eq_zero.mp h0) hcells
      · omega
    rw [hto]
    simp only [ne_eq, not_true_eq_false, false_iff, hcnt Player.p1, hcnt Player.p2]
    unfold halfLe
    simp
    exact hcells
  · intro _ q
    rw [winner_eq_halfLe]
    have hp : p_leys b q = 0 := by
      unfold p_leys countTaken
      have hz1 : ∀ (fam : List LeyLine), (∀ line ∈ fam, line ∈ allLines b) →
          fam.countP (fun x => x.taken = some q) = 0 := by
        intro fam hf
        rw [List.countP_eq_zero]
        intro line hline
        rw [decide_eq_true_iff, hunowned line (hf line hline)]
        exact Option.noConfusion
      rw [hz1 b.upw_leys (fun line h => by unfold allLines; simp [h]),
        hz1 b.downw_leys (fun line h => by unfold allLines; simp [h]),
        hz1 b.horiz_leys (fun line h => by unfold allLines; simp [h])]
    rw [hp]
    have htot1 : 1 ≤ total_leys b := by
      unfold total_leys
      have := hWF.content_ne
      omega
    unfold halfLe
    simp
    omega

/-- Running a legal move sequence: the board stays well-formed and
invariant-respecting, and each move claims a fresh cell. -/
theorem legal_run (ms : List (String × Player)) :
    ∀ b, BoardWF b → GameInv b → legalSeqB b ms = true →
      ∃ b1, applyMoves b ms = some b1 ∧ BoardWF b1 ∧ GameInv b1 ∧
        ms.length + unmarkedCount b1 ≤ unmarkedCount b := by
  induction ms with
  | nil =>
    intro b hWF hInv _
    exact ⟨b, rfl, hWF, hInv, by simp⟩
  | cons mv rest ih =>
    intro b hWF hInv hleg
    obtain ⟨l, p⟩ := mv
    unfold legalSeqB at hleg
    rw [Bool.and_eq_true] at hleg
    obtain ⟨hmem, hrest⟩ := hleg
    have hmem2 : l ∈ possible_variations b := List.mem_of_elem_eq_true hmem
    obtain ⟨b1, hocc, hWF1, hInv1, hdec⟩ := occupy_legal_step b l p hWF hInv hmem2
    rw [hocc] at hrest
    obtain ⟨b2, happ, hWF2, hInv2, hcount⟩ := ih b1 hWF1 hInv1 hrest
    refine ⟨b2, ?_, hWF2, hInv2, ?_⟩
    · unfold applyMoves
      rw [hocc]
      exact happ
    · rw [List.length_cons]
      omega
/-- On a well-formed invariant board with no legal moves left, the winner
flag is set: either the game was already over, or every cell is marked,
which forces every ley-line to be owned and one player past the
half-of-total threshold — and the invariant says an unset flag would mean
neither player is past it. -/
theorem stuck_winner (b : Board) (hWF : BoardWF b) (hInv : GameInv b)
    (hpv : possible_variations b = []) : b.data1 ≠ none := by
  intro hnone
  have hgo : game_over b = false := by simp [game_over, hnone]
  have hall : ∀ i, i < b.vals.length → markedVal (cellVal b.vals i) = true := by
    intro i hi
    unfold possible_variations at hpv
    rw [if_pos (by simp [hgo])] at hpv
    rw [List.map_eq_nil, List.filter_eq_nil] at hpv
    have hkv : (labelOf i, i) ∈ b.node_reference := by
      rw [hWF.reg]
      exact List.mem_map.mpr ⟨i, List.mem_range.mpr hi, rfl⟩
    have hne := hpv _ hkv
    rw [decide_eq_true_iff] at hne
    unfold occupation_possible at hne
    rw [lookupNode_label b hWF i hi] at hne
    have hne2 : ¬((if cellVal b.vals i = CellVal.int 1 ∨ cellVal b.vals i = CellVal.int 2
        then (some false : Option Bool) else some true) = some true) := hne
    by_cases hm : cellVal b.vals i = CellVal.int 1 ∨ cellVal b.vals i = CellVal.int 2
    · simp [markedVal, hm]
    · exfalso
      exact hne2 (by rw [if_neg hm])
  have howned : ∀ line ∈ allLines b, line.taken ≠ none := by
    intro line hmem
    rw [hInv.lines line hmem]
    by_contra hcon
    rw [not_or] at hcon
    obtain ⟨h1, h2⟩ := hcon
    have hsum : lineCount b.vals line Player.p1 + lineCount b.vals line Player.p2 =
        line.cells.length := by
      unfold lineCount
      apply countP_pair_length
      intro c hc
      have hm := hall c (hWF.lines_mem line hmem c hc)
      unfold markedVal at hm
      rw [decide_eq_true_iff] at hm
      rcases hm with hm | hm
      · exact Or.inl ⟨by simp [hm], by simp [hm]⟩
      · exact Or.inr ⟨by simp [hm], by simp [hm]⟩
    have hne := hWF.lines_ne line hmem
    have hlen : 1 ≤ line.cells.length := by
      rcases Nat.eq_zero_or_pos line.cells.length with h0 | h0
      · exact absurd (List.length_eq_zero.mp h0) hne
      · omega
    unfold halfLe at h1 h2
    simp only [decide_eq_true_iff] at h1 h2
    omega
  have hfam : ∀ (fam : List LeyLine), (∀ line ∈ fam, line ∈ allLines b) →
      countTaken fam Player.p1 + countTaken fam Player.p2 = fam.length := by
    intro fam hf
    unfold countTaken
    apply countP_pair_length
    intro line hline
    have ho := howned line (hf line hline)
    cases ht : line.taken with
    | none => exact absurd ht ho
    | some q =>
      cases q with
      | p1 => exact Or.inl ⟨by simp [ht], by simp [ht]⟩
      | p2 => exact Or.inr ⟨by simp [ht], by simp [ht]⟩
  have hu := hfam b.upw_leys (fun line h => by unfold allLines; simp [h])
  have hd := hfam b.downw_leys (fun line h => by unfold allLines; simp [h])
  have hh := hfam b.horiz_leys (fun line h => by unfold allLines; simp [h])
  have hsum2 : p_leys b Player.p1 + p_leys b Player.p2 = total_leys b := by
    unfold p_leys total_leys
    have hud := hWF.ud
    have hhl := hWF.horiz_len
    unfold countTaken at hu hd hh
    unfold countTaken
    omega
  have hw1 := hInv.flag hnone Player.p1
  have hw2 := hInv.flag hnone Player.p2
  rw [winner_eq_halfLe] at hw1 hw2
  unfold halfLe at hw1 hw2
  simp only [decide_eq_false_iff_not] at hw1 hw2
  omega
/-- C9: from a freshly constructed board of any size `≥ 0`, any sequence
of legal moves (each an unclaimed label on a board with no winner, by
either player, in any order) has length at most the board's total cell
count, and whenever no legal move remains the reached state is terminal
with the winner flag set.  Together: a terminal state with the winner
flag set is reached within at most `cellCount` moves. -/
theorem claim_C9 (z : Int) (hz : 0 ≤ z) (b0 : Board) (h0 : boardInit z = some b0)
    (ms : List (String × Player)) (hms : legalSeqB b0 ms = true) :
    ms.length ≤ cellCount b0 ∧
      ∃ b1, applyMoves b0 ms = some b1 ∧
        (possible_variations b1 = [] → b1.data1 ≠ none) := by
  obtain ⟨b, hb, hWF, hInv⟩ := boardInit_inv z hz
  obtain rfl : b0 = b := Option.some.inj (h0.symm.trans hb)
  obtain ⟨b1, happ, hWF1, hInv1, hcount⟩ := legal_run ms b0 hWF hInv hms
  have hcells : unmarkedCount b0 ≤ cellCount b0 := by
    unfold unmarkedCount cellCount
    rw [hWF.reg, List.length_map, List.length_range]
    have h1 : List.countP (fun i => !markedVal (cellVal b0.vals i))
        (List.range b0.vals.length) ≤ (List.range b0.vals.length).length :=
      List.countP_le_length _
    rw [List.length_range] at h1
    exact h1
  exact ⟨by omega, b1, happ, fun hpv => stuck_winner b1 hWF1 hInv1 hpv⟩

/-- Witness for `claim_C9`: one legal move on the size-0 board. -/
theorem claim_C9_witness :
    legalSeqB board0 [("A", Player.p1)] = true ∧
      [("A", Player.p1)].length ≤ cellCount board0 ∧
      ∃ b1, applyMoves board0 [("A", Player.p1)] = some b1 ∧
        (possible_variations b1 = [] → b1.data1 ≠ none) :=
  ⟨by decide, claim_C9 0 (by decide) board0 (by decide) [("A", Player.p1)] (by decide)⟩
